import Mathlib

/-!
Shallow embedding of the core of the `mail-analyzer` repository
(IMAP mail-retrieval pipeline) together with proofs about the claims
of its specification.

Conventions used throughout:
* Python `str` values that are only compared / searched are modelled as
  Lean `String` (protocol text) or as `List Nat` of Unicode code points
  (mailbox names, mail bodies), as indicated at each definition.
* Python `bytes` payloads that the code only decodes with
  `decode(errors="ignore")` before regex matching are modelled by the
  decoded string directly.
* Python `dict` objects are modelled as insertion-ordered association
  lists; assignment to an existing key overwrites in place, assignment
  to a fresh key appends (`dictSet`).
* Network effects (`imaplib`) are modelled by explicit oracle functions
  supplied as parameters: the selectability of a mailbox and the
  response of each `uid fetch` attempt.
* Logging calls are ignored; the data that a log/warning would carry is
  returned explicitly where a claim refers to it.
-/

namespace MailAnalyzer

/-- Python slice `l[:k]` for an `int` bound `k` (negative bounds count
from the end, clamping at zero). -/
def pySliceTo (l : List α) (k : Int) : List α :=
  if k < 0 then l.take ((l.length : Int) + k).toNat else l.take k.toNat

/-- Python dict assignment `d[k] = v` on an insertion-ordered
association list: overwrite in place when the key exists, append
otherwise. -/
def dictSet [DecidableEq K] (d : List (K × V)) (k : K) (v : V) : List (K × V) :=
  match d with
  | [] => [(k, v)]
  | (k', v') :: rest => if k' = k then (k, v) :: rest else (k', v') :: dictSet rest k v

/-- Key list (`list(d.keys())`) of an association-list dict. -/
def dictKeys (d : List (K × V)) : List K := d.map Prod.fst

/-- `util._chunked`: split a list into consecutive chunks of `size`
elements (the last one possibly shorter).  With `size = 0` the Python
generator terminates immediately without yielding (an `islice` of 0
elements is falsy), so the result is `[]`.  The recursion is driven by
a structural fuel initialised to the list length, which suffices
because every step consumes at least one element. -/
def chunkedGo (s : Nat) : Nat → List α → List (List α)
  | _, [] => []
  | 0, _ :: _ => []
  | fuel + 1, x :: rest => (x :: rest.take s) :: chunkedGo s fuel (rest.drop s)

def chunked (l : List α) (size : Nat) : List (List α) :=
  match size with
  | 0 => []
  | s + 1 => chunkedGo s l.length l

/-- The slicing loop of `util.split_evenly`: `k` chunks are still to be
produced, the first `rem` of them one element larger than `base`.
`items[start:start+size]` over a running `start` is rendered as
`take`/`drop` of the not-yet-consumed suffix, which is the same
consecutive slicing. -/
def splitGo (base : Nat) : Nat → Nat → List α → List (List α)
  | _, 0, _ => []
  | rem, k + 1, items =>
    let size := base + (if 0 < rem then 1 else 0)
    items.take size :: splitGo base (rem - 1) k (items.drop size)

/-- `util.split_evenly` on the item list of a dict (the dict branch
first materialises `list(data.items())` and rebuilds a dict from every
chunk, which on unique keys is the chunk itself). -/
def split_evenly (items : List α) (n : Nat) : List (List α) :=
  splitGo (items.length / n) (items.length % n) n items

/-- `core.email_record.EmailRecord`.  Timestamps are modelled as `Nat`
with `datetime.min ↦ 0`. -/
structure EmailRecord where
  mailbox : String
  uid : Nat
  internaldate : Option Nat := none
  «to» : Option String := none
  subject : Option String := none
  body : Option String := none
deriving DecidableEq, Repr

/-- The `EmailRecords` mapping `{(mailbox, uid): EmailRecord}`. -/
abbrev EmailRecords := List ((String × Nat) × EmailRecord)

/-- `order` literal of `filter_and_sort_records`. -/
inductive SortOrder | asc | desc | rand
deriving DecidableEq, Repr

/-- Sort key of `filter_and_sort_records`:
`x[1].internaldate or datetime.min` (a missing date sorts as the
minimum value). -/
def recKey (x : (String × Nat) × EmailRecord) : Nat := x.2.internaldate.getD 0

/-- Ascending comparison used by `items.sort(key=..., reverse=False)`. -/
def ascRel (a b : (String × Nat) × EmailRecord) : Prop := recKey a ≤ recKey b

/-- Descending comparison used by `items.sort(key=..., reverse=True)`
(CPython's stable reverse sort equals a stable sort by the opposite
key comparison). -/
def descRel (a b : (String × Nat) × EmailRecord) : Prop := recKey b ≤ recKey a

instance : DecidableRel ascRel := fun _ _ => Nat.decLe _ _
instance : DecidableRel descRel := fun _ _ => Nat.decLe _ _

instance : IsTotal ((String × Nat) × EmailRecord) ascRel :=
  ⟨fun a b => Nat.le_total (recKey a) (recKey b)⟩
instance : IsTrans ((String × Nat) × EmailRecord) ascRel :=
  ⟨fun _ _ _ h1 h2 => Nat.le_trans h1 h2⟩
instance : IsTotal ((String × Nat) × EmailRecord) descRel :=
  ⟨fun a b => Nat.le_total (recKey b) (recKey a)⟩
instance : IsTrans ((String × Nat) × EmailRecord) descRel :=
  ⟨fun _ _ _ h1 h2 => Nat.le_trans h2 h1⟩

/-- `fetch_emails._limit_mail_count`.  `uidsLen` is `len(uids)`,
`mail_count` is the requested count (`None` or a non-`int` falls back
to the configured maximum), `max_count` is
`ConfigLoader.MAILS_MAX_COUNT`.  Returns
`min(uids_len, mail_count, max_count)`; the warning log does not
affect the result and is omitted. -/
def _limit_mail_count (uidsLen : Nat) (mail_count : Option Int) (max_count : Int) : Int :=
  min (min (uidsLen : Int) (mail_count.getD max_count)) max_count

/-- The arrangement step of `fetch_emails.filter_and_sort_records`
before the limit slice: shuffle for `rand` (the permutation chosen by
`random.shuffle` is supplied as the oracle `shuffle`), otherwise a
stable sort by `internaldate or datetime.min`, reversed for `desc`. -/
def arrangedItems (shuffle : EmailRecords → EmailRecords)
    (records : EmailRecords) (order : SortOrder) : EmailRecords :=
  match order with
  | .rand => shuffle records
  | .asc => List.insertionSort ascRel records
  | .desc => List.insertionSort descRel records

/-- `fetch_emails.filter_and_sort_records`: arrange, compute the
effective limit, slice (`items[:limit]`), and return the items (the
final `dict(items)` over unique keys is the identity). -/
def filter_and_sort_records (shuffle : EmailRecords → EmailRecords) (max_count : Int)
    (records : EmailRecords) (order : SortOrder) (limit : Option Int) : EmailRecords :=
  pySliceTo (arrangedItems shuffle records order)
    (_limit_mail_count records.length limit max_count)

/-- Maximal prefix of decimal digits (`\d+` matched at the current
position, greedy). -/
def digitsAt : List Char → List Char
  | [] => []
  | c :: rest => if c.isDigit then c :: digitsAt rest else []

/-- One attempted match of `re.search(r"UID (\d+)")` at the current
position: the literal `UID ` followed by at least one digit. -/
def uidAt (l : List Char) : Option (List Char) :=
  match l with
  | 'U' :: 'I' :: 'D' :: ' ' :: t =>
    match digitsAt t with
    | [] => none
    | d => some d
  | _ => none

/-- `re.search(r"UID (\d+)", s)`: leftmost position where the pattern
matches, returning the captured digit run. -/
def uidSearch : List Char → Option (List Char)
  | [] => none
  | c :: rest =>
    match uidAt (c :: rest) with
    | some d => some d
    | none => uidSearch rest

/-- `re.search(r"^(\d+)", s)`: digits at the very start of the string. -/
def caretDigits (l : List Char) : Option (List Char) :=
  match digitsAt l with
  | [] => none
  | d => some d

/-- The UID extracted from one fetch-response envelope in
`fetch_raw_by_mailbox_and_uid_list`: first `re.search(r"UID (\d+)")`,
then the fallback `re.search(r"^(\d+)")`; `none` when both fail. -/
def metaUid (meta : String) : Option String :=
  match uidSearch meta.data with
  | some d => some (String.mk d)
  | none =>
    match caretDigits meta.data with
    | some d => some (String.mk d)
    | none => none

/-- One element of the `data` list returned by `imap.uid("fetch", ...)`:
either not a 2-tuple (skipped by the `isinstance` guard) or a
`(meta, body)` pair, carried as the `errors="ignore"`-decoded text. -/
inductive RespItem
  | junk
  | pair (meta : String) (body : String)
deriving DecidableEq, Repr

/-- UID parsed from a response item (`none` for skipped items). -/
def itemUid : RespItem → Option String
  | .junk => none
  | .pair meta _ => metaUid meta

/-- The per-mailbox fetch result dict `{uid: (meta, body)}`. -/
abbrev ResDict := List (String × (String × String))

/-- The inner `for item in data` loop of one fetch attempt: collect the
parsed UIDs (`fetched_uids`, a set — only membership is used) and write
`results[uid] = (meta, body)` for every item with a parseable UID. -/
def processItems : List RespItem → List String → ResDict → List String × ResDict
  | [], fetched, results => (fetched, results)
  | .junk :: rest, fetched, results => processItems rest fetched results
  | .pair meta body :: rest, fetched, results =>
    match metaUid meta with
    | none => processItems rest fetched results
    | some u => processItems rest (u :: fetched) (dictSet results u (meta, body))

/-- `status != "OK" or not data` for one attempt's response. -/
def attemptBad (r : String × List RespItem) : Prop := r.1 ≠ "OK" ∨ r.2 = []

instance (r : String × List RespItem) : Decidable (attemptBad r) := by
  unfold attemptBad; infer_instance

/-- Effect of one executed fetch attempt on
`(remaining_uids, results)`: a failed attempt changes nothing, a
successful one records the items and removes the satisfied UIDs. -/
def attemptStep (r : String × List RespItem) (st : List String × ResDict) :
    List String × ResDict :=
  if attemptBad r then st
  else
    (st.1.filter (fun u => !(processItems r.2 [] st.2).1.contains u),
     (processItems r.2 [] st.2).2)

/-- State `(remaining_uids, results)` after the first `k` attempts of
the retry loop, assuming no early exit (used to state claims about
executions that reach the final attempt). -/
def stateAt (oracle : Nat → String × List RespItem) (requested : List String) :
    Nat → List String × ResDict
  | 0 => (requested, [])
  | k + 1 => attemptStep (oracle k) (stateAt oracle requested k)

/-- Raised exception of the batch-fetch (the `raise Exception(...)` on
total failure of the final attempt). -/
inductive FetchErr | fetchFailed
deriving DecidableEq, Repr

/-- The retry loop of `fetch_raw_by_mailbox_and_uid_list`
(`for attempt in range(retry + 1)`), written with the number `fuel` of
loop iterations still to run as the structural recursion argument
(callers maintain `fuel = retry + 1 - attempt`; the top-level call is
`fuel = retry + 1`, `attempt = 0`).  Returns the final
`(results, remaining_uids)`; a non-empty second component is exactly
the case in which the source prints the warning
`一部のUIDは取得できませんでした` naming those UIDs. -/
def fetchLoop (oracle : Nat → String × List RespItem) (retry : Nat) :
    Nat → Nat → List String → ResDict → Except FetchErr (ResDict × List String)
  | 0, _, remaining, results => .ok (results, remaining)
  | fuel + 1, attempt, remaining, results =>
    if remaining = [] then .ok (results, remaining)
    else
      let r := oracle attempt
      if attemptBad r then
        if attempt < retry then fetchLoop oracle retry fuel (attempt + 1) remaining results
        else .error .fetchFailed
      else
        let (fetched, results') := processItems r.2 [] results
        fetchLoop oracle retry fuel (attempt + 1)
          (remaining.filter (fun u => !fetched.contains u)) results'

/-- The requested UID set `set(map(str, uid_list))` of the batch fetch,
canonicalised to first-occurrence order (Python set iteration order is
unspecified; only membership and the warning content matter). -/
def requestedUids (uid_list : List Nat) : List String :=
  (uid_list.map (fun u => toString u)).eraseDups

/-- `core.imap.fetch_raw_by_mailbox_and_uid_list`.  `select` models
`select_mailbox` (a failed selection returns `{}` immediately),
`oracle` models `imap.uid("fetch", ...)` per attempt.  The `Except`
result separates the `raise` on total failure of the last attempt from
a normal return of `(results, still-missing uids)`. -/
def fetch_raw_by_mailbox_and_uid_list (select : String → Bool)
    (oracle : Nat → String × List RespItem) (mailbox : String)
    (uid_list : List Nat) (retry : Nat) : Except FetchErr (ResDict × List String) :=
  if !select mailbox then .ok ([], [])
  else fetchLoop oracle retry (retry + 1) 0 (requestedUids uid_list) []

/-! ### Modified UTF-7 (RFC 3501 folder-name encoding)

`util.encode_to_utf7` / `util.decode_from_utf7` delegate to
`imap_tools.imap_utf7`, which encodes runs of non-printable characters
as modified base64 (`/` replaced by `,`, padding stripped) of their
UTF-16BE bytes, bracketed by `&` ... `-`, with the literal `&` written
`&-`.  Strings are modelled as lists of Unicode code points; the wire
form is a list of byte values (all < 128).  Our base64 decoder is
strict where `binascii` is lenient on malformed input that the encoder
never produces; on encoder output both agree. -/

/-- A Unicode scalar value (encodable to UTF-16, as Python strings
without lone surrogates). -/
def isScalar (c : Nat) : Prop := c < 0xD800 ∨ (0xE000 ≤ c ∧ c < 0x110000)

instance (c : Nat) : Decidable (isScalar c) := by unfold isScalar; infer_instance

/-- UTF-16BE bytes of one scalar (surrogate pair above U+FFFF). -/
def utf16beChar (c : Nat) : List Nat :=
  if c < 0x10000 then [c / 256, c % 256]
  else
    let c' := c - 0x10000
    let hi := 0xD800 + c' / 0x400
    let lo := 0xDC00 + c' % 0x400
    [hi / 256, hi % 256, lo / 256, lo % 256]

/-- `value.encode('utf-16be')`. -/
def utf16be (l : List Nat) : List Nat := (l.map utf16beChar).flatten

/-- `bytes.decode('utf-16be')` (strict), `none` on malformed input. -/
def utf16beDecode : List Nat → Option (List Nat)
  | [] => some []
  | b1 :: b2 :: rest =>
    let u := b1 * 256 + b2
    if 0xD800 ≤ u ∧ u < 0xDC00 then
      match rest with
      | b3 :: b4 :: rest' =>
        let v := b3 * 256 + b4
        if 0xDC00 ≤ v ∧ v < 0xE000 then
          match utf16beDecode rest' with
          | some cs => some ((0x10000 + (u - 0xD800) * 0x400 + (v - 0xDC00)) :: cs)
          | none => none
        else none
      | _ => none
    else if 0xDC00 ≤ u ∧ u < 0xE000 then none
    else
      match utf16beDecode rest with
      | some cs => some (u :: cs)
      | none => none
  | [_] => none

/-- Modified-base64 digit for a 6-bit value (standard alphabet with
`/` replaced by `,`, as `_modified_base64` does). -/
def b64Digit (n : Nat) : Nat :=
  if n < 26 then 65 + n
  else if n < 52 then 97 + (n - 26)
  else if n < 62 then 48 + (n - 52)
  else if n = 62 then 43
  else 44

/-- Inverse of `b64Digit` (`none` outside the alphabet). -/
def b64DigitInv (c : Nat) : Option Nat :=
  if 65 ≤ c ∧ c ≤ 90 then some (c - 65)
  else if 97 ≤ c ∧ c ≤ 122 then some (26 + (c - 97))
  else if 48 ≤ c ∧ c ≤ 57 then some (52 + (c - 48))
  else if c = 43 then some 62
  else if c = 44 then some 63
  else none

/-- `binascii.b2a_base64(...)` with the trailing newline and `=`
padding stripped (as `_modified_base64` does): bytes to base64 digit
run. -/
def b64Encode : List Nat → List Nat
  | [] => []
  | [a] => [b64Digit (a / 4), b64Digit (a % 4 * 16)]
  | [a, b] => [b64Digit (a / 4), b64Digit (a % 4 * 16 + b / 16), b64Digit (b % 16 * 4)]
  | a :: b :: c :: rest =>
    b64Digit (a / 4) :: b64Digit (a % 4 * 16 + b / 16) ::
      b64Digit (b % 16 * 4 + c / 64) :: b64Digit (c % 64) :: b64Encode rest

/-- `binascii.a2b_base64(... + b'===')` on a stripped-padding digit
run: the inverse of `b64Encode` (leftover bits are dropped, as
`binascii` does). -/
def b64Decode : List Nat → Option (List Nat)
  | [] => some []
  | [c1] =>
    match b64DigitInv c1 with
    | _ => none
  | [c1, c2] =>
    match b64DigitInv c1, b64DigitInv c2 with
    | some a, some b => some [a * 4 + b / 16]
    | _, _ => none
  | [c1, c2, c3] =>
    match b64DigitInv c1, b64DigitInv c2, b64DigitInv c3 with
    | some a, some b, some c => some [a * 4 + b / 16, b % 16 * 16 + c / 4]
    | _, _, _ => none
  | c1 :: c2 :: c3 :: c4 :: rest =>
    match b64DigitInv c1, b64DigitInv c2, b64DigitInv c3, b64DigitInv c4 with
    | some a, some b, some c, some d =>
      match b64Decode rest with
      | some bs => some ((a * 4 + b / 16) :: (b % 16 * 16 + c / 4) :: (c % 4 * 64 + d) :: bs)
      | none => none
    | _, _, _, _ => none

/-- `_do_b64`: flush a pending run of non-printable characters as one
`&`...`-` block (empty run: no output). -/
def doB64 (run : List Nat) : List Nat :=
  match run with
  | [] => []
  | _ => 38 :: b64Encode (utf16be run) ++ [45]

/-- The encoder loop of `imap_tools.imap_utf7.utf7_encode`: printable
ASCII (0x20–0x7E) is emitted literally after flushing the pending run,
`&` as `&-`; everything else joins the pending run. -/
def utf7EncodeGo (pending : List Nat) : List Nat → List Nat
  | [] => doB64 pending
  | c :: rest =>
    if 0x20 ≤ c ∧ c ≤ 0x7E then
      doB64 pending ++ (if c = 38 then [38, 45] else [c]) ++ utf7EncodeGo [] rest
    else utf7EncodeGo (pending ++ [c]) rest

/-- `imap_tools.imap_utf7.utf7_encode` on code points. -/
def utf7Encode (s : List Nat) : List Nat := utf7EncodeGo [] s

/-- `_modified_unbase64` of the collected block (after the `&`):
`,` → `/`, base64-decode, UTF-16BE-decode.  Our `b64DigitInv` already
treats `,` as digit 63. -/
def unB64 (block : List Nat) : Option (List Nat) :=
  match b64Decode block with
  | some bs => utf16beDecode bs
  | none => none

/-- The decoder loop of `imap_tools.imap_utf7.utf7_decode`.  The state
is `none` outside a `&`-block and `some buf` inside one, with `buf`
the bytes collected after the `&` (Python keeps the `&` itself at
index 0 and tests `len(decode_arr) == 1`).  `none` as result models a
raised decoding exception. -/
def utf7DecodeGo : Option (List Nat) → List Nat → Option (List Nat)
  | none, [] => some []
  | some buf, [] =>
    (match buf with
     | [] => some []
     | _ => unB64 buf)
  | none, c :: rest =>
    if c = 38 then utf7DecodeGo (some []) rest
    else
      match utf7DecodeGo none rest with
      | some cs => some (c :: cs)
      | none => none
  | some buf, c :: rest =>
    if c = 45 then
      match buf with
      | [] =>
        (match utf7DecodeGo none rest with
         | some cs => some (38 :: cs)
         | none => none)
      | _ =>
        match unB64 buf, utf7DecodeGo none rest with
        | some dec, some cs => some (dec ++ cs)
        | _, _ => none
    else utf7DecodeGo (some (buf ++ [c])) rest

/-- `imap_tools.imap_utf7.utf7_decode` on wire bytes. -/
def utf7Decode (s : List Nat) : Option (List Nat) := utf7DecodeGo none s

/-- `util.encode_to_utf7`: wire-encode a display name.  The final
`.decode()` of the wire bytes is the identity on code points because
every wire byte is ASCII. -/
def encode_to_utf7 (s : List Nat) : List Nat := utf7Encode s

/-- `util.decode_from_utf7`: wire-decode to the display name (the
initial `.encode()` of an ASCII wire string is the identity on byte
values). -/
def decode_from_utf7 (s : List Nat) : Option (List Nat) := utf7Decode s

/-! ### Mailbox listing and resolver (`core.imap`) -/

/-- Python `str.split()` / `\s` whitespace (ASCII part). -/
def isPyWs (c : Nat) : Bool := c = 32 ∨ c = 9 ∨ c = 10 ∨ c = 11 ∨ c = 12 ∨ c = 13

/-- `re.search(r'"([^"]+)"\s*$', line)`: the last double-quoted
non-empty run, when only whitespace follows it. -/
def lastQuoted (l : List Nat) : Option (List Nat) :=
  match (l.reverse).dropWhile isPyWs with
  | 34 :: rest =>
    let content := rest.takeWhile (fun c => !(c = 34 : Bool))
    (match content, rest.drop content.length with
     | [], _ => none
     | _, 34 :: _ => some content.reverse
     | _, _ => none)
  | _ => none

/-- `line.split()`: whitespace-separated tokens. -/
def pySplitTokens : List Nat → List (List Nat)
  | [] => []
  | c :: rest =>
    if isPyWs c then pySplitTokens rest
    else (c :: rest.takeWhile (fun b => !isPyWs b)) ::
      pySplitTokens (rest.dropWhile (fun b => !isPyWs b))
termination_by l => l.length
decreasing_by
  all_goals simp
  have := (List.dropWhile_sublist (l := rest) (fun b => !isPyWs b)).length_le
  omega

/-- Name extraction for one `imap.list()` response line of
`list_mailboxes`: the quoted name when the quote regex matches,
otherwise the last whitespace token (`decoded.split()[-1]`).  `none`
when the line has neither a quoted name nor any token — the path on
which Python's `split()[-1]` raises `IndexError` into the logged
`except`, after which the loop body still runs with the *stale* `name`
of the previous iteration (or raises an uncaught `NameError` on the
first line); that continuation is modelled in `listMailboxesGo`. -/
def parseListLine (l : List Nat) : Option (List Nat) :=
  match lastQuoted l with
  | some n => some n
  | none => (pySplitTokens l).getLast?

/-- The uncaught exception of `list_mailboxes`: referencing the
never-assigned `name` after the `except` swallowed the parse failure
of the very first line. -/
inductive ListErr | nameError
deriving DecidableEq, Repr

/-- Value of the Python variable `name` after one loop body of
`list_mailboxes`: the freshly parsed name when parsing succeeded,
otherwise the stale previous value (the `except` swallowed the
failure without assigning). -/
def currentName (p stale : Option (List Nat)) : Option (List Nat) :=
  match p with
  | some n => some n
  | none => stale

/-- The trailing `if name not in ignore_set: mailbox_names.append(name)`
of one loop body, prepended to the names collected by the remaining
iterations (errors propagate). -/
def listAppendStep (ignore : List (List Nat)) (n : List Nat)
    (r : Except ListErr (List (List Nat))) : Except ListErr (List (List Nat)) :=
  match r with
  | .error e => .error e
  | .ok ns => .ok (if n ∉ ignore then n :: ns else ns)

/-- The `for mbox in mailboxes` loop of `core.imap.list_mailboxes`.
`stale` is the current value of the Python variable `name`: `none`
before the first assignment.  A parsed line assigns `name`; an
unparseable line leaves it stale; the trailing append always runs with
the current `name` — re-appending the previous name after a parse
failure, or raising `NameError` when no line has parsed yet. -/
def listMailboxesGo (ignore : List (List Nat)) :
    Option (List Nat) → List (List Nat) → Except ListErr (List (List Nat))
  | _, [] => .ok []
  | stale, line :: rest =>
    match currentName (parseListLine line) stale with
    | some n => listAppendStep ignore n (listMailboxesGo ignore (some n) rest)
    | none => .error .nameError

/-- `core.imap.list_mailboxes`: parse every response line of
`imap.list()`, dropping names in the ignore list (an absent/empty
ignore list filters nothing).  A non-`OK` status yields `[]`; an
unparseable first line raises. -/
def list_mailboxes (status : String) (lines : List (List Nat))
    (ignore_list : List (List Nat)) : Except ListErr (List (List Nat)) :=
  if status = "OK" then listMailboxesGo ignore_list none lines else .ok []

/-- `core.imap.collect_target_mailboxes`: a non-empty explicit target
list replaces the server listing (whose `NameError` would propagate);
the ignore list is then removed and everything is wire-encoded. -/
def collect_target_mailboxes (status : String) (lines : List (List Nat))
    (target_mailboxes : List (List Nat)) (ignored_mailboxes : List (List Nat)) :
    Except ListErr (List (List Nat)) :=
  match (if target_mailboxes ≠ [] then .ok target_mailboxes
         else list_mailboxes status lines []) with
  | .error e => .error e
  | .ok mailbox_list =>
    let mailbox_list :=
      if ignored_mailboxes ≠ [] then
        mailbox_list.filter (fun mb => decide (mb ∉ ignored_mailboxes))
      else mailbox_list
    .ok (mailbox_list.map encode_to_utf7)

/-! ### MIME message model and body extraction (`core.imap`) -/

/-- A parsed MIME part as produced by `email.message_from_bytes`:
either a leaf part or a multipart container (for which
`get_payload(decode=True)` returns `None` and `is_multipart()` is
`True`).  Fields are the results of the accessors the code calls:
`get_content_type()` (already lower-cased by the library),
`get_content_disposition()`, `get_content_charset()`, and
`get_payload(decode=True)` as raw bytes. -/
inductive MimePart where
  | leaf (ctype : String) (disp : Option String) (charset : Option String)
      (payload : Option (List Nat))
  | multi (ctype : String) (disp : Option String) (charset : Option String)
      (parts : List MimePart)

def MimePart.getContentType : MimePart → String
  | .leaf t _ _ _ => t
  | .multi t _ _ _ => t

def MimePart.getContentDisposition : MimePart → Option String
  | .leaf _ d _ _ => d
  | .multi _ d _ _ => d

def MimePart.getContentCharset : MimePart → Option String
  | .leaf _ _ c _ => c
  | .multi _ _ c _ => c

def MimePart.getPayloadDecoded : MimePart → Option (List Nat)
  | .leaf _ _ _ p => p
  | .multi _ _ _ _ => none

def MimePart.isMultipart : MimePart → Bool
  | .leaf _ _ _ _ => false
  | .multi _ _ _ _ => true

mutual
/-- `Message.walk()`: the part itself, then its subparts recursively
(depth first). -/
def MimePart.walk : MimePart → List MimePart
  | .leaf t d c p => [.leaf t d c p]
  | .multi t d c parts => .multi t d c parts :: walkAll parts

def walkAll : List MimePart → List MimePart
  | [] => []
  | p :: ps => p.walk ++ walkAll ps
end

/-- A text codec, as a map from a byte string to decoded units: `some
codepoint` for a decoded character, `none` for an invalid byte
sequence (one error unit per offending sequence). -/
structure Codec where
  units : List Nat → List (Option Nat)

/-- `bytes.decode(..., errors="ignore")`: invalid sequences are
dropped. -/
def pyDecodeIgnore (c : Codec) (bs : List Nat) : List Nat :=
  (c.units bs).filterMap id

/-- `bytes.decode(..., errors="replace")`: invalid sequences become
U+FFFD. -/
def pyDecodeReplace (c : Codec) (bs : List Nat) : List Nat :=
  (c.units bs).map (fun u => u.getD 0xFFFD)

/-- Environment of library-level effects used by the body/metadata
parsing code: the codec registry (`none` models `LookupError` for an
unknown charset name), the always-available default codec for
`DEFAULT_ENCODING = "utf-8"`, `datetime.strptime` on
`"%d-%b-%Y %H:%M:%S %z"` (`none` = `ValueError`), header extraction of
`To` by `HeaderParser`, and `email.header.decode_header`-based MIME
word decoding of a non-empty header string. -/
structure PyEnv where
  codecOf : String → Option Codec
  utf8 : Codec
  strptime : String → Option Nat
  headerTo : String → Option String
  decodeHeaderStr : String → String

/-- The codec chosen for a charset name: the registered one, `"utf-8"`
always resolving to the default codec. -/
def PyEnv.lookupCodec (env : PyEnv) (name : String) : Option Codec :=
  if name = "utf-8" then some env.utf8 else env.codecOf name

/-- `util.decode_mime_words` applied to an optional header value:
`""` for `None`/empty, otherwise the library decoding. -/
def decode_mime_words (env : PyEnv) (s : Option String) : String :=
  match s with
  | none => ""
  | some t => if t = "" then "" else env.decodeHeaderStr t

/-- `core.imap._decode_mail_body`: decode the payload with the
declared charset (default `"utf-8"`) using `errors="ignore"`; an
unknown charset (`LookupError`, caught by `except Exception`) falls
back to the default encoding, again with `errors="ignore"`.  A `None`
payload leaves the body empty. -/
def _decode_mail_body (env : PyEnv) (part : MimePart) : List Nat :=
  let charset := part.getContentCharset.getD "utf-8"
  match part.getPayloadDecoded with
  | none => []
  | some payload =>
    match env.lookupCodec charset with
    | some codec => pyDecodeIgnore codec payload
    | none => pyDecodeIgnore env.utf8 payload

/-- The `for part in msg.walk()` loop of `extract_subject_and_body`:
body of the first `text/plain` part whose disposition is not
`attachment`, `[]` when no such part exists. -/
def firstPlainBody (env : PyEnv) : List MimePart → List Nat
  | [] => []
  | p :: ps =>
    if p.getContentType = "text/plain" ∧ p.getContentDisposition ≠ some "attachment" then
      _decode_mail_body env p
    else firstPlainBody env ps

/-- `core.imap.extract_subject_and_body` on the parsed message
(`subject` is the raw `Subject` header, `msg` the parsed MIME tree).
Stripping of the decoded subject is modelled by the oracle output;
the claims under verification concern the body. -/
def extract_subject_and_body (env : PyEnv) (subject : Option String)
    (msg : MimePart) : String × List Nat :=
  let subj := decode_mime_words env subject
  let body :=
    if msg.isMultipart then firstPlainBody env msg.walk
    else _decode_mail_body env msg
  (subj, body)

/-! ### Metadata fetch (`src.core.fetch_emails`) -/

/-- Oracles for one pipeline run: mailbox selectability
(`select_mailbox`) and the response of `imap.uid("fetch", ...)` per
(mailbox, batch, attempt). -/
structure ImapEnv where
  select : String → Bool
  resp : String → List Nat → Nat → String × List RespItem

/-- `int(s)` on a decimal digit string. -/
def pyStrToNat (s : String) : Nat :=
  s.data.foldl (fun acc c => acc * 10 + (c.toNat - 48)) 0

/-- One attempted match of `re.search(r'INTERNALDATE "([^"]+)"')` at
the current position. -/
def idateAt (l : List Char) : Option (List Char) :=
  if ("INTERNALDATE \"".data).isPrefixOf l then
    let t := l.drop 14
    let cap := t.takeWhile (fun c => !(c = '"' : Bool))
    match cap, t.drop cap.length with
    | [], _ => none
    | _, '"' :: _ => some cap
    | _, _ => none
  else none

/-- `re.search(r'INTERNALDATE "([^"]+)"', s)`: leftmost match. -/
def idateSearch : List Char → Option (List Char)
  | [] => none
  | c :: rest =>
    match idateAt (c :: rest) with
    | some d => some d
    | none => idateSearch rest

/-- `fetch_emails._parse_fetch_metadata`: `None` when the meta text
has no `UID n` field; otherwise a fresh record with the parsed UID,
the `INTERNALDATE` timestamp when present and parseable (`strptime`
failure is tolerated), and the MIME-decoded `To` header. -/
def _parse_fetch_metadata (env : PyEnv) (mailbox : String)
    (meta : String) (body : String) : Option EmailRecord :=
  match uidSearch meta.data with
  | none => none
  | some uidDigits =>
    let internaldate :=
      match idateSearch meta.data with
      | none => none
      | some dstr => env.strptime (String.mk dstr)
    let to_address := decode_mime_words env (env.headerTo body)
    some { mailbox := mailbox, uid := pyStrToNat (String.mk uidDigits),
           internaldate := internaldate, «to» := some to_address }

/-- The `defaultdict(list)` grouping of `_iter_mailbox_batches`:
`uid_map[mailbox].append(uid)` over the record keys in insertion
order. -/
def addToUidMap (m : List (String × List Nat)) (k : String) (v : Nat) :
    List (String × List Nat) :=
  match m with
  | [] => [(k, [v])]
  | (k', vs) :: rest =>
    if k' = k then (k, vs ++ [v]) :: rest else (k', vs) :: addToUidMap rest k v

def buildUidMap (keys : List (String × Nat)) : List (String × List Nat) :=
  keys.foldl (fun m k => addToUidMap m k.1 k.2) []

/-- `iter_mailbox_batches_from_uid_map` over the grouped map: skip
unselectable mailboxes, chunk each UID list by the configured fetch
size. -/
def mailboxBatches (env : ImapEnv) (fetchSize : Nat) (records : EmailRecords) :
    List (String × List Nat) :=
  ((buildUidMap (records.map Prod.fst)).map (fun p =>
    if env.select p.1 then (chunked p.2 fetchSize).map (fun b => (p.1, b)) else [])).flatten

/-- Exceptions that can escape `fetch_email_metadata`. -/
inductive PyErr | fetchFailed | stopIteration
deriving DecidableEq, Repr

/-- The `for uid, data in fetch_data.items()` loop of
`fetch_email_metadata`: an item whose meta has no parseable UID is
dropped (with a logged warning), any other item is written to
`email_records[(mailbox, int(uid))]`. -/
def processMetadataItems (env : PyEnv) (mailbox : String) :
    List (String × (String × String)) → EmailRecords → EmailRecords
  | [], records => records
  | (uid, data) :: rest, records =>
    match _parse_fetch_metadata env mailbox data.1 data.2 with
    | none => processMetadataItems env mailbox rest records
    | some r => processMetadataItems env mailbox rest
        (dictSet records (mailbox, pyStrToNat uid) r)

/-- One iteration of the batch loop of `fetch_email_metadata`: a batch
fetch that raises propagates out of the loop, otherwise the fetched
items are merged into the record mapping. -/
def metadataBatchStep (ienv : ImapEnv) (penv : PyEnv)
    (acc : Except PyErr EmailRecords) (batch : String × List Nat) :
    Except PyErr EmailRecords :=
  match acc with
  | .error e => .error e
  | .ok recs =>
    match fetch_raw_by_mailbox_and_uid_list ienv.select (ienv.resp batch.1 batch.2)
        batch.1 batch.2 2 with
    | .error _ => .error .fetchFailed
    | .ok (fdata, _) => .ok (processMetadataItems penv batch.1 fdata recs)

/-- `fetch_emails.fetch_email_metadata`: batch over the initial record
keys, fetch each batch with the default `retry = 2`, merge parsed
records back, then peek at the first entry with `next(iter(...))`,
which raises `StopIteration` when the mapping is empty. -/
def fetch_email_metadata (ienv : ImapEnv) (penv : PyEnv) (fetchSize : Nat)
    (records : EmailRecords) : Except PyErr EmailRecords :=
  match (mailboxBatches ienv fetchSize records).foldl
      (metadataBatchStep ienv penv) (.ok records) with
  | .error e => .error e
  | .ok recs => if recs = [] then .error .stopIteration else .ok recs

/-! ### Lemmas about `split_evenly` -/

theorem splitGo_length {α : Type} (base : Nat) (k : Nat) :
    ∀ (rem : Nat) (items : List α), (splitGo base rem k items).length = k := by
  induction k with
  | zero => intro rem items; rfl
  | succ k ih => intro rem items; simp [splitGo, ih]

theorem splitGo_map_length {α : Type} (base : Nat) (k : Nat) :
    ∀ (rem : Nat) (items : List α), rem ≤ k → items.length = base * k + rem →
      (splitGo base rem k items).map List.length =
        List.replicate rem (base + 1) ++ List.replicate (k - rem) base := by
  induction k with
  | zero =>
    intro rem items hrem h
    interval_cases rem
    simp [splitGo]
  | succ k ih =>
    intro rem items hrem h
    rw [Nat.mul_succ] at h
    match rem with
    | 0 =>
      have hb : ¬ (0 : Nat) < 0 := by omega
      have h1 : (items.take base).length = base := by
        simp [List.length_take]; omega
      have h2 : (items.drop base).length = base * k + 0 := by
        simp [List.length_drop]; omega
      simpa [splitGo, hb, h1, List.replicate_succ] using ih 0 (items.drop base) (by omega) h2
    | r + 1 =>
      have hb : (0 : Nat) < r + 1 := by omega
      have h1 : (items.take (base + 1)).length = base + 1 := by
        simp [List.length_take]; omega
      have h2 : (items.drop (base + 1)).length = base * k + r := by
        simp [List.length_drop]; omega
      have hr : r ≤ k := by omega
      simpa [splitGo, hb, h1, List.replicate_succ] using ih r (items.drop (base + 1)) hr h2

theorem splitGo_flatten {α : Type} (base : Nat) (k : Nat) :
    ∀ (rem : Nat) (items : List α), rem ≤ k → items.length = base * k + rem →
      (splitGo base rem k items).flatten = items := by
  induction k with
  | zero =>
    intro rem items hrem h
    interval_cases rem
    simp at h
    simp [splitGo, h]
  | succ k ih =>
    intro rem items hrem h
    rw [Nat.mul_succ] at h
    match rem with
    | 0 =>
      have hb : ¬ (0 : Nat) < 0 := by omega
      have h2 : (items.drop base).length = base * k + 0 := by
        simp [List.length_drop]; omega
      simp only [splitGo, if_neg hb, List.flatten_cons, Nat.add_zero]
      rw [ih 0 (items.drop base) (by omega) h2, List.take_append_drop]
    | r + 1 =>
      have hb : (0 : Nat) < r + 1 := by omega
      have h2 : (items.drop (base + 1)).length = base * k + r := by
        simp [List.length_drop]; omega
      simp only [splitGo, if_pos hb, List.flatten_cons, Nat.add_sub_cancel]
      rw [ih r (items.drop (base + 1)) (by omega) h2, List.take_append_drop]

/-- Ceiling division identity used to state the maximal share size. -/
theorem ceil_div_eq (N W : Nat) (hW : 0 < W) :
    (N + W - 1) / W = N / W + (if 0 < N % W then 1 else 0) := by
  have h1 := Nat.div_add_mod N W
  have h2 : N % W < W := Nat.mod_lt _ hW
  rcases Nat.eq_zero_or_pos (N % W) with h0 | hpos
  · rw [if_neg (by omega), Nat.add_zero]
    apply Nat.div_eq_of_lt_le
    · calc N / W * W ≤ N := Nat.div_mul_le_self N W
        _ ≤ N + W - 1 := by omega
    · have : (N / W + 1) * W = W * (N / W) + W := by ring
      omega
  · rw [if_pos hpos]
    apply Nat.div_eq_of_lt_le
    · have : (N / W + 1) * W = W * (N / W) + W := by ring
      omega
    · have : (N / W + 1 + 1) * W = W * (N / W) + W + W := by ring
      omega

/-- C5: splitting a record mapping of `N` entries into `W ≥ 1` shares
yields exactly `W` shares; the largest share has `⌈N/W⌉` entries; any
two shares differ in size by at most one; exactly `N % W` shares carry
the extra (`N/W + 1`-th) item; and the shares concatenate back to the
original mapping, so (keys being unique) no key occurs in two distinct
shares. -/
theorem c5_split_evenly_partition (records : EmailRecords) (W : Nat) (hW : 1 ≤ W)
    (hnd : (records.map Prod.fst).Nodup) :
    (split_evenly records W).length = W ∧
    (∀ s ∈ split_evenly records W, s.length ≤ (records.length + W - 1) / W) ∧
    (∃ s ∈ split_evenly records W, s.length = (records.length + W - 1) / W) ∧
    (∀ s ∈ split_evenly records W, ∀ t ∈ split_evenly records W,
      s.length ≤ t.length + 1) ∧
    ((split_evenly records W).map List.length).count (records.length / W + 1)
      = records.length % W ∧
    (split_evenly records W).flatten = records ∧
    List.Pairwise (fun s t => ∀ k, k ∈ s.map Prod.fst → k ∉ t.map Prod.fst)
      (split_evenly records W) := by
  have hWpos : 0 < W := hW
  have h1 := Nat.div_add_mod records.length W
  have h2 : records.length % W < W := Nat.mod_lt _ hWpos
  have hcomm : W * (records.length / W) = records.length / W * W := Nat.mul_comm _ _
  have hlen : records.length = records.length / W * W + records.length % W := by omega
  have hml := splitGo_map_length (α := (String × Nat) × EmailRecord)
    (records.length / W) W (records.length % W) records (by omega) (by omega)
  have hfl := splitGo_flatten (α := (String × Nat) × EmailRecord)
    (records.length / W) W (records.length % W) records (by omega) (by omega)
  have hceil := ceil_div_eq records.length W hWpos
  have hsplit : split_evenly records W
      = splitGo (records.length / W) (records.length % W) W records := rfl
  have hmem : ∀ s ∈ split_evenly records W,
      s.length = records.length / W + 1 ∧ 0 < records.length % W ∨
      s.length = records.length / W := by
    intro s hs
    have : s.length ∈ (split_evenly records W).map List.length :=
      List.mem_map_of_mem _ hs
    rw [hsplit, hml] at this
    rcases List.mem_append.mp this with h | h
    · have hr := List.eq_of_mem_replicate h
      have hrem : 0 < records.length % W := by
        rcases Nat.eq_zero_or_pos (records.length % W) with h0 | h0
        · rw [h0] at h; simp at h
        · exact h0
      exact Or.inl ⟨hr, hrem⟩
    · exact Or.inr (List.eq_of_mem_replicate h)
  refine ⟨?_, ?_, ?_, ?_, ?_, ?_, ?_⟩
  · rw [hsplit]; exact splitGo_length _ _ _ _
  · intro s hs
    rw [hceil]
    rcases hmem s hs with ⟨h, hrem⟩ | h
    · rw [h, if_pos hrem]
    · rw [h]; split <;> omega
  · rw [hceil]
    rcases Nat.eq_zero_or_pos (records.length % W) with h0 | h0
    · have hne : split_evenly records W ≠ [] := by
        intro hc
        have := splitGo_length (α := (String × Nat) × EmailRecord)
          (records.length / W) W (records.length % W) records
        rw [← hsplit, hc] at this
        simp at this; omega
      obtain ⟨s, hs⟩ := List.exists_mem_of_ne_nil _ hne
      refine ⟨s, hs, ?_⟩
      rcases hmem s hs with ⟨_, hrem⟩ | h
      · omega
      · rw [h, if_neg (by omega)]; omega
    · have : (records.length / W + 1) ∈ (split_evenly records W).map List.length := by
        rw [hsplit, hml]
        exact List.mem_append.mpr (Or.inl (List.mem_replicate.mpr ⟨by omega, rfl⟩))
      obtain ⟨s, hs, hlens⟩ := List.mem_map.mp this
      exact ⟨s, hs, by rw [hlens, if_pos h0]⟩
  · intro s hs t ht
    rcases hmem s hs with ⟨h, _⟩ | h <;> rcases hmem t ht with ⟨h', _⟩ | h' <;> omega
  · rw [hsplit, hml, List.count_append]
    simp [List.count_replicate]
  · rw [hsplit]; exact hfl
  · have hnd' : ((split_evenly records W).map (fun s => s.map Prod.fst)).flatten.Nodup := by
      rw [← List.map_flatten, hsplit, hfl]; exact hnd
    have hpw := (List.nodup_flatten.mp hnd').2
    have := List.pairwise_map.mp hpw
    exact this.imp (fun h => fun k hk1 hk2 => h hk1 hk2)

/-! ### Concrete data used by witnesses and counterexamples -/

/-- A bare record as created at UID discovery. -/
def mkRec (mb : String) (uid : Nat) : EmailRecord := { mailbox := mb, uid := uid }

/-- Five concrete records over two mailboxes. -/
def recs5 : EmailRecords :=
  [(("A", 1), mkRec "A" 1), (("A", 2), mkRec "A" 2), (("A", 3), mkRec "A" 3),
   (("B", 1), mkRec "B" 1), (("B", 2), mkRec "B" 2)]

/-- Witness for C5 at five records and two shares. -/
theorem c5_split_evenly_partition_witness :
    (split_evenly recs5 2).length = 2 ∧
    (∀ s ∈ split_evenly recs5 2, s.length ≤ (recs5.length + 2 - 1) / 2) ∧
    (∃ s ∈ split_evenly recs5 2, s.length = (recs5.length + 2 - 1) / 2) ∧
    (∀ s ∈ split_evenly recs5 2, ∀ t ∈ split_evenly recs5 2,
      s.length ≤ t.length + 1) ∧
    ((split_evenly recs5 2).map List.length).count (recs5.length / 2 + 1)
      = recs5.length % 2 ∧
    (split_evenly recs5 2).flatten = recs5 ∧
    List.Pairwise (fun s t => ∀ k, k ∈ s.map Prod.fst → k ∉ t.map Prod.fst)
      (split_evenly recs5 2) :=
  c5_split_evenly_partition recs5 2 (by decide) (by decide)

/-! ### Claims about `filter_and_sort_records` -/

theorem arrangedItems_length (shuffle : EmailRecords → EmailRecords)
    (hsh : ∀ l, (shuffle l).length = l.length) (records : EmailRecords)
    (order : SortOrder) :
    (arrangedItems shuffle records order).length = records.length := by
  cases order <;> simp [arrangedItems, hsh]

/-- Three concrete records, one without a date. -/
def recsDated : EmailRecords :=
  [(("A", 1), { mailbox := "A", uid := 1, internaldate := some 300 }),
   (("A", 2), { mailbox := "A", uid := 2, internaldate := some 100 }),
   (("A", 3), { mailbox := "A", uid := 3 })]

theorem dictKeys_nil : dictKeys ([] : List (K × V)) = [] := rfl

theorem dictKeys_cons (p : K × V) (d : List (K × V)) :
    dictKeys (p :: d) = p.1 :: dictKeys d := rfl

theorem mem_dictKeys_dictSet [DecidableEq K] (d : List (K × V)) (k : K) (v : V) (a : K) :
    a ∈ dictKeys (dictSet d k v) ↔ a ∈ dictKeys d ∨ a = k := by
  induction d with
  | nil => simp [dictSet, dictKeys_cons, dictKeys_nil]
  | cons hd tl ih =>
    obtain ⟨k', v'⟩ := hd
    by_cases h : k' = k
    · subst h
      have hset : dictSet ((k', v') :: tl) k' v = (k', v) :: tl := by
        simp [dictSet]
      rw [hset]
      simp only [dictKeys_cons, List.mem_cons]
      tauto
    · have hset : dictSet ((k', v') :: tl) k v = (k', v') :: dictSet tl k v := by
        simp [dictSet, h]
      rw [hset]
      simp only [dictKeys_cons, List.mem_cons, ih]
      tauto

theorem dictKeys_dictSet_of_mem [DecidableEq K] (d : List (K × V)) (k : K) (v : V)
    (h : k ∈ dictKeys d) : dictKeys (dictSet d k v) = dictKeys d := by
  induction d with
  | nil => simp [dictKeys_nil] at h
  | cons hd tl ih =>
    obtain ⟨k', v'⟩ := hd
    by_cases hk : k' = k
    · subst hk
      simp [dictSet, dictKeys_cons]
    · rw [dictKeys_cons, List.mem_cons] at h
      rcases h with h | h
      · exact absurd h.symm hk
      · simp only [dictSet, if_neg hk, dictKeys_cons, ih h]

theorem processItems_mem_fetched (data : List RespItem) :
    ∀ (f : List String) (r : ResDict) (u : String),
      (u ∈ (processItems data f r).1 ↔ u ∈ f ∨ ∃ it ∈ data, itemUid it = some u) := by
  induction data with
  | nil => intro f r u; simp [processItems]
  | cons it rest ih =>
    intro f r u
    match it with
    | .junk =>
      have hstep : processItems (.junk :: rest) f r = processItems rest f r := by
        simp [processItems]
      rw [hstep, ih]
      constructor
      · rintro (h | ⟨it, hit, hiu⟩)
        · exact Or.inl h
        · exact Or.inr ⟨it, List.mem_cons_of_mem _ hit, hiu⟩
      · rintro (h | ⟨it, hit, hiu⟩)
        · exact Or.inl h
        · rcases List.mem_cons.mp hit with h' | h'
          · subst h'; simp [itemUid] at hiu
          · exact Or.inr ⟨it, h', hiu⟩
    | .pair meta body =>
      cases hm : metaUid meta with
      | none =>
        have hstep : processItems (.pair meta body :: rest) f r = processItems rest f r := by
          simp [processItems, hm]
        rw [hstep, ih]
        constructor
        · rintro (h | ⟨it, hit, hiu⟩)
          · exact Or.inl h
          · exact Or.inr ⟨it, List.mem_cons_of_mem _ hit, hiu⟩
        · rintro (h | ⟨it, hit, hiu⟩)
          · exact Or.inl h
          · rcases List.mem_cons.mp hit with h' | h'
            · subst h'; simp [itemUid, hm] at hiu
            · exact Or.inr ⟨it, h', hiu⟩
      | some w =>
        have hstep : processItems (.pair meta body :: rest) f r
            = processItems rest (w :: f) (dictSet r w (meta, body)) := by
          simp [processItems, hm]
        rw [hstep, ih]
        constructor
        · rintro (h | ⟨it, hit, hiu⟩)
          · rcases List.mem_cons.mp h with h' | h'
            · subst h'
              exact Or.inr ⟨.pair meta body, List.mem_cons_self _ _, by simp [itemUid, hm]⟩
            · exact Or.inl h'
          · exact Or.inr ⟨it, List.mem_cons_of_mem _ hit, hiu⟩
        · rintro (h | ⟨it, hit, hiu⟩)
          · exact Or.inl (List.mem_cons_of_mem _ h)
          · rcases List.mem_cons.mp hit with h' | h'
            · subst h'
              simp [itemUid, hm] at hiu
              subst hiu
              exact Or.inl (List.mem_cons_self _ _)
            · exact Or.inr ⟨it, h', hiu⟩

theorem processItems_mem_keys (data : List RespItem) :
    ∀ (f : List String) (r : ResDict) (u : String),
      (u ∈ dictKeys (processItems data f r).2 ↔
        u ∈ dictKeys r ∨ ∃ it ∈ data, itemUid it = some u) := by
  induction data with
  | nil => intro f r u; simp [processItems]
  | cons it rest ih =>
    intro f r u
    match it with
    | .junk =>
      have hstep : processItems (.junk :: rest) f r = processItems rest f r := by
        simp [processItems]
      rw [hstep, ih]
      constructor
      · rintro (h | ⟨it, hit, hiu⟩)
        · exact Or.inl h
        · exact Or.inr ⟨it, List.mem_cons_of_mem _ hit, hiu⟩
      · rintro (h | ⟨it, hit, hiu⟩)
        · exact Or.inl h
        · rcases List.mem_cons.mp hit with h' | h'
          · subst h'; simp [itemUid] at hiu
          · exact Or.inr ⟨it, h', hiu⟩
    | .pair meta body =>
      cases hm : metaUid meta with
      | none =>
        have hstep : processItems (.pair meta body :: rest) f r = processItems rest f r := by
          simp [processItems, hm]
        rw [hstep, ih]
        constructor
        · rintro (h | ⟨it, hit, hiu⟩)
          · exact Or.inl h
          · exact Or.inr ⟨it, List.mem_cons_of_mem _ hit, hiu⟩
        · rintro (h | ⟨it, hit, hiu⟩)
          · exact Or.inl h
          · rcases List.mem_cons.mp hit with h' | h'
            · subst h'; simp [itemUid, hm] at hiu
            · exact Or.inr ⟨it, h', hiu⟩
      | some w =>
        have hstep : processItems (.pair meta body :: rest) f r
            = processItems rest (w :: f) (dictSet r w (meta, body)) := by
          simp [processItems, hm]
        rw [hstep, ih]
        constructor
        · rintro (h | ⟨it, hit, hiu⟩)
          · rcases (mem_dictKeys_dictSet r w (meta, body) u).mp h with h' | h'
            · exact Or.inl h'
            · subst h'
              exact Or.inr ⟨.pair meta body, List.mem_cons_self _ _, by simp [itemUid, hm]⟩
          · exact Or.inr ⟨it, List.mem_cons_of_mem _ hit, hiu⟩
        · rintro (h | ⟨it, hit, hiu⟩)
          · exact Or.inl ((mem_dictKeys_dictSet r w (meta, body) u).mpr (Or.inl h))
          · rcases List.mem_cons.mp hit with h' | h'
            · subst h'
              simp [itemUid, hm] at hiu
              exact Or.inl ((mem_dictKeys_dictSet r w (meta, body) u).mpr (Or.inr hiu.symm))
            · exact Or.inr ⟨it, h', hiu⟩

theorem fetchLoop_keys (oracle : Nat → String × List RespItem) (retry : Nat) :
    ∀ (fuel attempt : Nat), attempt + fuel ≤ retry + 1 →
    ∀ (remaining : List String) (results : ResDict) (res : ResDict) (rem : List String),
      fetchLoop oracle retry fuel attempt remaining results = .ok (res, rem) →
      ∀ u, u ∈ dictKeys res →
        u ∈ dictKeys results ∨ ∃ k, attempt ≤ k ∧ k ≤ retry ∧
          ∃ it ∈ (oracle k).2, itemUid it = some u := by
  intro fuel
  induction fuel with
  | zero =>
    intro attempt hn remaining results res rem hok u hu
    obtain ⟨rfl, rfl⟩ : results = res ∧ remaining = rem := by
      injection hok with h; exact ⟨congrArg Prod.fst h, congrArg Prod.snd h⟩
    exact Or.inl hu
  | succ fuel ih =>
    intro attempt hn remaining results res rem hok u hu
    unfold fetchLoop at hok
    by_cases h2 : remaining = []
    · rw [if_pos h2] at hok
      obtain ⟨rfl, rfl⟩ : results = res ∧ remaining = rem := by
        injection hok with h; exact ⟨congrArg Prod.fst h, congrArg Prod.snd h⟩
      exact Or.inl hu
    · rw [if_neg h2] at hok
      by_cases h3 : attemptBad (oracle attempt)
      · rw [if_pos h3] at hok
        by_cases h4 : attempt < retry
        · rw [if_pos h4] at hok
          rcases ih (attempt + 1) (by omega) remaining results res rem hok u hu with
            h | ⟨k, hk1, hk2, hit⟩
          · exact Or.inl h
          · exact Or.inr ⟨k, by omega, hk2, hit⟩
        · rw [if_neg h4] at hok
          exact absurd hok (by simp)
      · rw [if_neg h3] at hok
        rcases ih (attempt + 1) (by omega) _ _ res rem hok u hu with
          h | ⟨k, hk1, hk2, hit⟩
        · rcases (processItems_mem_keys (oracle attempt).2 [] results u).mp h with
            h' | ⟨it, hit, hiu⟩
          · exact Or.inl h'
          · exact Or.inr ⟨attempt, by omega, by omega, it, hit, hiu⟩
        · exact Or.inr ⟨k, by omega, hk2, hit⟩

/-! ### C3: provenance of the batch-fetch result keys -/

/-- A selection oracle accepting every mailbox. -/
def selTrue : String → Bool := fun _ => true

/-- A fetch oracle that always answers `OK` with a single item whose
envelope carries the un-requested UID 999. -/
def orcExtra : Nat → String × List RespItem :=
  fun _ => ("OK", [.pair "1 (UID 999 RFC822 {5}" "hello"])

/-- Counterexample to C3 as stated: fetching UID list `[1]` against a
server that answers with an item for UID 999 returns a map whose key
`"999"` is not a member of the requested UID list (the code stores
every parsed UID without checking it against the outstanding set). -/
theorem c3_counterexample_unrequested_key :
    fetch_raw_by_mailbox_and_uid_list selTrue orcExtra "A" [1] 2
      = .ok ([("999", ("1 (UID 999 RFC822 {5}", "hello"))], ["1"]) ∧
    "999" ∉ requestedUids [1] := by
  constructor
  · rfl
  · decide

/-- Provenance of the keys of a batch-fetch result: every key is a UID
parsed from some response item of some attempt. -/
theorem fetchRaw_keys (select : String → Bool)
    (oracle : Nat → String × List RespItem) (mailbox : String)
    (uid_list : List Nat) (retry : Nat) (res : ResDict) (rem : List String)
    (hok : fetch_raw_by_mailbox_and_uid_list select oracle mailbox uid_list retry
      = .ok (res, rem)) :
    ∀ u ∈ dictKeys res, ∃ k, k ≤ retry ∧ ∃ it ∈ (oracle k).2, itemUid it = some u := by
  intro u hu
  unfold fetch_raw_by_mailbox_and_uid_list at hok
  by_cases hsel : select mailbox
  · rw [if_neg (by simp [hsel])] at hok
    rcases fetchLoop_keys oracle retry (retry + 1) 0 (by omega) _ _ res rem hok u hu with
      h | ⟨k, hk1, hk2, hit⟩
    · simp [dictKeys_nil] at h
    · exact ⟨k, hk2, hit⟩
  · rw [if_pos (by simp [hsel])] at hok
    obtain ⟨rfl, rfl⟩ : ([] : ResDict) = res ∧ ([] : List String) = rem := by
      injection hok with h; exact ⟨congrArg Prod.fst h, congrArg Prod.snd h⟩
    simp [dictKeys_nil] at hu

/-- C3 amended: every key of the returned result map is a UID parsed
out of some response item of some attempt (an item with no parseable
UID is discarded); the key need not belong to the requested UID
list. -/
theorem c3_amended_result_keys_from_responses (select : String → Bool)
    (oracle : Nat → String × List RespItem) (mailbox : String)
    (uid_list : List Nat) (retry : Nat) (res : ResDict) (rem : List String)
    (hok : fetch_raw_by_mailbox_and_uid_list select oracle mailbox uid_list retry
      = .ok (res, rem)) :
    ∀ u ∈ dictKeys res, ∃ k, k ≤ retry ∧ ∃ it ∈ (oracle k).2, itemUid it = some u :=
  fetchRaw_keys select oracle mailbox uid_list retry res rem hok

/-- Witness for the amended C3 at the concrete oracle `orcExtra`. -/
theorem c3_amended_result_keys_from_responses_witness :
    ∃ k, k ≤ 2 ∧ ∃ it ∈ (orcExtra k).2, itemUid it = some "999" :=
  c3_amended_result_keys_from_responses selTrue orcExtra "A" [1] 2
    [("999", ("1 (UID 999 RFC822 {5}", "hello"))] ["1"] (by rfl) "999" (by decide)

/-! ### C9: metadata fetch on an empty mapping -/

/-- C9: `fetch_email_metadata` raises `StopIteration` on an empty
record mapping (the unconditional `next(iter(...))` after the batch
loop), and hence returns normally only when the input mapping is
non-empty. -/
theorem c9_fetch_email_metadata_requires_nonempty :
    (∀ (ienv : ImapEnv) (penv : PyEnv) (fetchSize : Nat),
      fetch_email_metadata ienv penv fetchSize [] = .error .stopIteration) ∧
    (∀ (ienv : ImapEnv) (penv : PyEnv) (fetchSize : Nat)
      (records r : EmailRecords),
      fetch_email_metadata ienv penv fetchSize records = .ok r → records ≠ []) := by
  have base : ∀ (ienv : ImapEnv) (penv : PyEnv) (fetchSize : Nat),
      fetch_email_metadata ienv penv fetchSize [] = .error .stopIteration :=
    fun _ _ _ => rfl
  refine ⟨base, ?_⟩
  intro ienv penv fetchSize records r hok hrec
  subst hrec
  rw [base ienv penv fetchSize] at hok
  exact Except.noConfusion hok

/-- The ASCII codec (Python's `ascii`): bytes ≤ 0x7F decode to
themselves, larger bytes are invalid. -/
def asciiCodec : Codec :=
  ⟨fun bs => bs.map (fun b => if b ≤ 0x7F then some b else none)⟩

/-- A concrete parsing environment: only `"ascii"` is registered, the
default codec is the ASCII one, `strptime` always fails, no `To`
header is found, and MIME-word decoding is the identity. -/
def penv0 : PyEnv :=
  ⟨fun n => if n = "ascii" then some asciiCodec else none, asciiCodec,
   fun _ => none, fun _ => none, fun s => s⟩

/-- An IMAP environment whose selection always fails (every mailbox is
skipped, no batch is fetched). -/
def ienvSkip : ImapEnv := ⟨fun _ => false, fun _ _ _ => ("OK", [])⟩

/-- A single-record mapping. -/
def recsOne : EmailRecords := [(("A", 1), mkRec "A" 1)]

/-- Witness for C9: on a non-empty mapping (with every mailbox skipped)
the metadata fetch returns normally, and the non-emptiness conclusion
follows from the theorem. -/
theorem c9_fetch_email_metadata_requires_nonempty_witness :
    fetch_email_metadata ienvSkip penv0 10 recsOne = .ok recsOne ∧ recsOne ≠ [] :=
  ⟨rfl, c9_fetch_email_metadata_requires_nonempty.2 ienvSkip penv0 10 recsOne recsOne rfl⟩

/-! ### C7: key discipline of the metadata fetch -/

theorem processMetadataItems_keys_mono (penv : PyEnv) (mb : String) :
    ∀ (items : List (String × (String × String))) (recs : EmailRecords),
      ∀ a ∈ dictKeys recs, a ∈ dictKeys (processMetadataItems penv mb items recs) := by
  intro items
  induction items with
  | nil => intro recs a ha; exact ha
  | cons p rest ih =>
    intro recs a ha
    obtain ⟨uid, data⟩ := p
    cases hp : _parse_fetch_metadata penv mb data.1 data.2 with
    | none =>
      have hstep : processMetadataItems penv mb ((uid, data) :: rest) recs
          = processMetadataItems penv mb rest recs := by
        simp [processMetadataItems, hp]
      rw [hstep]
      exact ih recs a ha
    | some r =>
      have hstep : processMetadataItems penv mb ((uid, data) :: rest) recs
          = processMetadataItems penv mb rest (dictSet recs (mb, pyStrToNat uid) r) := by
        simp [processMetadataItems, hp]
      rw [hstep]
      exact ih _ a ((mem_dictKeys_dictSet _ _ _ _).mpr (Or.inl ha))

theorem processMetadataItems_keys_eq (penv : PyEnv) (mb : String) :
    ∀ (items : List (String × (String × String))) (recs : EmailRecords),
      (∀ p ∈ items, (mb, pyStrToNat p.1) ∈ dictKeys recs) →
      dictKeys (processMetadataItems penv mb items recs) = dictKeys recs := by
  intro items
  induction items with
  | nil => intro recs _; rfl
  | cons p rest ih =>
    intro recs hp
    obtain ⟨uid, data⟩ := p
    cases hparse : _parse_fetch_metadata penv mb data.1 data.2 with
    | none =>
      have hstep : processMetadataItems penv mb ((uid, data) :: rest) recs
          = processMetadataItems penv mb rest recs := by
        simp [processMetadataItems, hparse]
      rw [hstep]
      exact ih recs (fun q hq => hp q (List.mem_cons_of_mem _ hq))
    | some r =>
      have hstep : processMetadataItems penv mb ((uid, data) :: rest) recs
          = processMetadataItems penv mb rest (dictSet recs (mb, pyStrToNat uid) r) := by
        simp [processMetadataItems, hparse]
      have hkey : (mb, pyStrToNat uid) ∈ dictKeys recs :=
        hp (uid, data) (List.mem_cons_self _ _)
      have hset := dictKeys_dictSet_of_mem recs (mb, pyStrToNat uid) r hkey
      rw [hstep, ih _ (by rw [hset]; exact fun q hq => hp q (List.mem_cons_of_mem _ hq)),
        hset]

theorem foldl_metadataBatchStep_error (ienv : ImapEnv) (penv : PyEnv) :
    ∀ (batches : List (String × List Nat)) (e : PyErr),
      batches.foldl (metadataBatchStep ienv penv) (.error e) = .error e := by
  intro batches e
  induction batches with
  | nil => rfl
  | cons b bs ih => simpa [metadataBatchStep] using ih

theorem foldl_metadataBatchStep_mono (ienv : ImapEnv) (penv : PyEnv) :
    ∀ (batches : List (String × List Nat)) (recs r : EmailRecords),
      batches.foldl (metadataBatchStep ienv penv) (.ok recs) = .ok r →
      ∀ a ∈ dictKeys recs, a ∈ dictKeys r := by
  intro batches
  induction batches with
  | nil =>
    intro recs r hok a ha
    injection hok with h
    rw [← h]
    exact ha
  | cons b bs ih =>
    intro recs r hok a ha
    rw [List.foldl_cons] at hok
    rcases hs : metadataBatchStep ienv penv (.ok recs) b with e | recs'
    · rw [hs, foldl_metadataBatchStep_error] at hok
      exact absurd hok (by simp)
    · rw [hs] at hok
      unfold metadataBatchStep at hs
      rcases hfr : fetch_raw_by_mailbox_and_uid_list ienv.select (ienv.resp b.1 b.2)
          b.1 b.2 2 with e' | fres
      · rw [hfr] at hs
        exact absurd hs (by simp)
      · obtain ⟨fdata, frem⟩ := fres
        rw [hfr] at hs
        injection hs with hs
        subst hs
        exact ih _ r hok a (processMetadataItems_keys_mono penv b.1 fdata recs a ha)

theorem foldl_metadataBatchStep_keys_eq (ienv : ImapEnv) (penv : PyEnv)
    (records : EmailRecords) :
    ∀ (batches : List (String × List Nat)) (recs r : EmailRecords),
      (∀ b ∈ batches, ∀ k, k ≤ 2 → ∀ it ∈ (ienv.resp b.1 b.2 k).2, ∀ u,
        itemUid it = some u → (b.1, pyStrToNat u) ∈ dictKeys records) →
      dictKeys recs = dictKeys records →
      batches.foldl (metadataBatchStep ienv penv) (.ok recs) = .ok r →
      dictKeys r = dictKeys records := by
  intro batches
  induction batches with
  | nil =>
    intro recs r _ hkeq hok
    injection hok with h
    rw [← h]
    exact hkeq
  | cons b bs ih =>
    intro recs r hp hkeq hok
    rw [List.foldl_cons] at hok
    rcases hs : metadataBatchStep ienv penv (.ok recs) b with e | recs'
    · rw [hs, foldl_metadataBatchStep_error] at hok
      exact absurd hok (by simp)
    · rw [hs] at hok
      unfold metadataBatchStep at hs
      rcases hfr : fetch_raw_by_mailbox_and_uid_list ienv.select (ienv.resp b.1 b.2)
          b.1 b.2 2 with e' | fres
      · rw [hfr] at hs
        exact absurd hs (by simp)
      · obtain ⟨fdata, frem⟩ := fres
        rw [hfr] at hs
        injection hs with hs
        subst hs
        have hitems : ∀ p ∈ fdata, (b.1, pyStrToNat p.1) ∈ dictKeys recs := by
          intro p hpmem
          have hkey : p.1 ∈ dictKeys fdata := List.mem_map_of_mem Prod.fst hpmem
          obtain ⟨k, hk2, it, hit, hiu⟩ :=
            fetchRaw_keys ienv.select (ienv.resp b.1 b.2) b.1 b.2 2 fdata frem hfr p.1 hkey
          rw [hkeq]
          exact hp b (List.mem_cons_self _ _) k hk2 it hit p.1 hiu
        have heq := processMetadataItems_keys_eq penv b.1 fdata recs hitems
        exact ih _ r (fun q hq => hp q (List.mem_cons_of_mem _ hq))
          (by rw [heq]; exact hkeq) hok

/-- C7 amended: `fetch_email_metadata` never removes a key from the
record mapping, and an item is dropped (with a warning) only when its
envelope has no parseable `UID n` field.  The key set is preserved
exactly when every UID the server returns parses to an
already-existing `(mailbox, uid)` record key; an item carrying an
unknown UID is *not* dropped — it creates a fresh record at
`(mailbox, int(uid))`. -/
theorem c7_amended_metadata_key_discipline (ienv : ImapEnv) (penv : PyEnv)
    (fetchSize : Nat) (records : EmailRecords) :
    (∀ r, fetch_email_metadata ienv penv fetchSize records = .ok r →
      ∀ a ∈ dictKeys records, a ∈ dictKeys r) ∧
    ((∀ b ∈ mailboxBatches ienv fetchSize records, ∀ k, k ≤ 2 →
        ∀ it ∈ (ienv.resp b.1 b.2 k).2, ∀ u, itemUid it = some u →
          (b.1, pyStrToNat u) ∈ dictKeys records) →
      ∀ r, fetch_email_metadata ienv penv fetchSize records = .ok r →
        dictKeys r = dictKeys records) := by
  constructor
  · intro r hok a ha
    unfold fetch_email_metadata at hok
    rcases hf : (mailboxBatches ienv fetchSize records).foldl
        (metadataBatchStep ienv penv) (.ok records) with e | recs
    · rw [hf] at hok
      exact absurd hok (by simp)
    · rw [hf] at hok
      dsimp only at hok
      by_cases hrec : recs = []
      · rw [if_pos hrec] at hok
        exact absurd hok (by simp)
      · rw [if_neg hrec] at hok
        injection hok with h
        rw [← h]
        exact foldl_metadataBatchStep_mono ienv penv _ records recs hf a ha
  · intro hp r hok
    unfold fetch_email_metadata at hok
    rcases hf : (mailboxBatches ienv fetchSize records).foldl
        (metadataBatchStep ienv penv) (.ok records) with e | recs
    · rw [hf] at hok
      exact absurd hok (by simp)
    · rw [hf] at hok
      dsimp only at hok
      by_cases hrec : recs = []
      · rw [if_pos hrec] at hok
        exact absurd hok (by simp)
      · rw [if_neg hrec] at hok
        injection hok with h
        rw [← h]
        exact foldl_metadataBatchStep_keys_eq ienv penv records _ records recs hp rfl hf

/-- An IMAP environment whose fetch always answers with the requested
UID 1. -/
def ienvGood : ImapEnv := ⟨fun _ => true, fun _ _ _ => ("OK", [.pair "1 (UID 1 x" "b"])⟩

/-- An IMAP environment whose fetch always answers with the
un-requested UID 999. -/
def ienvExtra : ImapEnv := ⟨fun _ => true, fun _ _ _ => ("OK", [.pair "1 (UID 999 x" "b"])⟩

/-- Counterexample to C7 as stated: a batch item with the unmatched
UID 999 is not dropped; it creates the fresh key `("A", 999)` in the
mapping, so the key set after the call is not a subset of the key set
before it. -/
theorem c7_counterexample_new_key :
    (fetch_email_metadata ienvExtra penv0 10 recsOne).map dictKeys
      = .ok [("A", 1), ("A", 999)] ∧
    ("A", 999) ∉ dictKeys recsOne := by
  exact ⟨rfl, by decide⟩

/-- Witness for the amended C7: with a well-behaved server the key set
is preserved exactly. -/
theorem c7_amended_metadata_key_discipline_witness :
    dictKeys [(("A", 1),
      ({ mailbox := "A", uid := 1, internaldate := none, «to» := some "" } : EmailRecord))]
      = dictKeys recsOne := by
  apply (c7_amended_metadata_key_discipline ienvGood penv0 10 recsOne).2
  · intro b hb k hk it hit u hu
    have hbs : mailboxBatches ienvGood 10 recsOne = [("A", [1])] := rfl
    rw [hbs] at hb
    have hb' : b = ("A", [1]) := by simpa using hb
    subst hb'
    have hit' : it = .pair "1 (UID 1 x" "b" := by simpa [ienvGood] using hit
    subst hit'
    have hiu : itemUid (.pair "1 (UID 1 x" "b") = some "1" := rfl
    rw [hiu] at hu
    injection hu with hu
    subst hu
    decide
  · rfl

/-! ### C8: mailbox resolver -/

/-- Code points of a string literal. -/
def s2cp (s : String) : List Nat := s.data.map Char.toNat

/-- A listing line for a non-selectable mailbox named `Bad`. -/
def noselectLine : List Nat := s2cp "(\\HasNoChildren \\Noselect) \"/\" \"Bad\""

/-- Counterexample to C8 as stated, on both of its branches: (i) an
explicit target list is *not* used verbatim — a target that also
occurs in the ignore list is removed, so target `["A"]` with ignore
`["A"]` yields `[]`, not the wire form of `["A"]`; (ii) the listing
branch does *not* remove non-selectable mailboxes — a `\Noselect`
listing line still contributes its name `Bad`. -/
theorem c8_counterexample_ignored_target :
    collect_target_mailboxes "OK" [] [[65]] [[65]] = .ok [] ∧
    ([[65]] : List (List Nat)).map encode_to_utf7 = [[65]] ∧
    (Except.ok [] : Except ListErr (List (List Nat))) ≠ .ok [[65]] ∧
    collect_target_mailboxes "OK" [noselectLine] [] [] = .ok [s2cp "Bad"] := by
  refine ⟨rfl, rfl, ?_, rfl⟩
  intro h
  injection h with h
  exact absurd h (by decide)

theorem listMailboxesGo_parseable (ignore : List (List Nat)) :
    ∀ (lines : List (List Nat)) (stale : Option (List Nat)),
      (∀ l ∈ lines, (parseListLine l).isSome) →
      listMailboxesGo ignore stale lines
        = .ok ((lines.filterMap parseListLine).filter (fun n => decide (n ∉ ignore)))
  | [], _, _ => rfl
  | line :: rest, stale, hp => by
    obtain ⟨n, hn⟩ := Option.isSome_iff_exists.mp (hp line (by simp))
    have hrec := listMailboxesGo_parseable ignore rest (some n)
      (fun l hl => hp l (by simp [hl]))
    have hcur : currentName (parseListLine line) stale = some n := by
      rw [hn]; rfl
    have hstep : listMailboxesGo ignore stale (line :: rest)
        = listAppendStep ignore n (listMailboxesGo ignore (some n) rest) := by
      have heq : listMailboxesGo ignore stale (line :: rest)
          = (match currentName (parseListLine line) stale with
             | some m => listAppendStep ignore m (listMailboxesGo ignore (some m) rest)
             | none => .error .nameError) := rfl
      rw [heq, hcur]
    rw [hstep, hrec]
    unfold listAppendStep
    dsimp only
    rw [List.filterMap_cons, hn]
    by_cases hmem : n ∈ ignore
    · rw [if_neg (by simpa using hmem)]
      simp [List.filter_cons, hmem]
    · rw [if_pos hmem]
      simp [List.filter_cons, hmem]

/-- C8 amended: a non-empty explicit target list is used *minus the
ignore list* (not verbatim), wire-encoded.  An empty target list is
replaced by the parsed server listing — names taken exactly as parsed,
with no selectability filtering — minus the ignore list, wire-encoded,
whenever every listing line parses; when the very first listing line
is unparseable the call raises (the stale-`name` error path of the
source). -/
theorem c8_amended_resolver (status : String) (lines targets ignored : List (List Nat)) :
    (targets ≠ [] → collect_target_mailboxes status lines targets ignored
      = .ok ((targets.filter (fun mb => decide (mb ∉ ignored))).map encode_to_utf7)) ∧
    (targets = [] → status = "OK" → (∀ l ∈ lines, (parseListLine l).isSome) →
      collect_target_mailboxes status lines targets ignored
        = .ok (((lines.filterMap parseListLine).filter
            (fun mb => decide (mb ∉ ignored))).map encode_to_utf7)) ∧
    (targets = [] → status = "OK" →
      ∀ l ls, lines = l :: ls → parseListLine l = none →
        collect_target_mailboxes status lines targets ignored = .error .nameError) := by
  have hfilter_nil : ∀ (l : List (List Nat)),
      l.filter (fun mb => decide (mb ∉ ([] : List (List Nat)))) = l := by
    intro l; simp
  refine ⟨?_, ?_, ?_⟩
  · intro ht
    unfold collect_target_mailboxes
    rw [if_pos ht]
    dsimp only
    by_cases hig : ignored ≠ []
    · rw [if_pos hig]
    · rw [if_neg hig]
      push_neg at hig
      subst hig
      rw [hfilter_nil]
  · intro ht hst hparse
    subst ht
    unfold collect_target_mailboxes
    rw [if_neg (show ¬([] : List (List Nat)) ≠ [] by simp)]
    unfold list_mailboxes
    rw [if_pos hst, listMailboxesGo_parseable [] lines none hparse, hfilter_nil]
    dsimp only
    by_cases hig : ignored ≠ []
    · rw [if_pos hig]
    · rw [if_neg hig]
      push_neg at hig
      subst hig
      rw [hfilter_nil]
  · intro ht hst l ls hlines hnone
    subst ht
    subst hlines
    unfold collect_target_mailboxes
    rw [if_neg (show ¬([] : List (List Nat)) ≠ [] by simp)]
    unfold list_mailboxes
    rw [if_pos hst]
    have hcur : currentName (parseListLine l) none = none := by
      rw [hnone]; rfl
    have hstep : listMailboxesGo [] none (l :: ls) = .error .nameError := by
      have heq : listMailboxesGo [] none (l :: ls)
          = (match currentName (parseListLine l) none with
             | some m => listAppendStep [] m (listMailboxesGo [] (some m) ls)
             | none => .error .nameError) := rfl
      rw [heq, hcur]
    rw [hstep]

/-- Witness for the amended C8: explicit targets `["A", "B"]` with
ignore list `["B"]` resolve to the wire form of `["A"]`. -/
theorem c8_amended_resolver_witness :
    collect_target_mailboxes "OK" [] [[65], [66]] [[66]] = .ok [[65]] := by
  rw [(c8_amended_resolver "OK" [] [[65], [66]] [[66]]).1 (by decide)]
  rfl

/-! ### C6: subject/body extraction -/

/-- Modelled from the spec's words (refinement target for C6): the
body decoding described by the specification, in which invalid byte
sequences are *replaced* (with U+FFFD) rather than causing an
exception; charset selection and fallback as in the code. -/
def specClaimedDecodeBody (env : PyEnv) (part : MimePart) : List Nat :=
  let charset := part.getContentCharset.getD "utf-8"
  match part.getPayloadDecoded with
  | none => []
  | some payload =>
    match env.lookupCodec charset with
    | some codec => pyDecodeReplace codec payload
    | none => pyDecodeReplace env.utf8 payload

/-- Counterexample to C6 as stated: the code decodes with
`errors="ignore"`, so an invalid byte is *dropped*, not replaced.  On
the single-part ascii message with payload `[0x41, 0xFF, 0x42]` the
code yields `"AB"` while the claimed replace-decoding yields
`"A�B"`. -/
theorem c6_counterexample_ignore_not_replace :
    (extract_subject_and_body penv0 none
      (.leaf "text/plain" none (some "ascii") (some [65, 255, 66]))).2 = [65, 66] ∧
    specClaimedDecodeBody penv0
      (.leaf "text/plain" none (some "ascii") (some [65, 255, 66])) = [65, 0xFFFD, 66] ∧
    (extract_subject_and_body penv0 none
      (.leaf "text/plain" none (some "ascii") (some [65, 255, 66]))).2
      ≠ specClaimedDecodeBody penv0
        (.leaf "text/plain" none (some "ascii") (some [65, 255, 66])) := by
  exact ⟨rfl, rfl, by decide⟩

theorem firstPlainBody_eq_find (env : PyEnv) :
    ∀ (ps : List MimePart), firstPlainBody env ps
      = (match ps.find? (fun p => decide (p.getContentType = "text/plain"
          ∧ p.getContentDisposition ≠ some "attachment")) with
        | some p => _decode_mail_body env p
        | none => []) := by
  intro ps
  induction ps with
  | nil => rfl
  | cons p rest ih =>
    by_cases hp : p.getContentType = "text/plain" ∧ p.getContentDisposition ≠ some "attachment"
    · have h1 : firstPlainBody env (p :: rest) = _decode_mail_body env p := by
        have heq : firstPlainBody env (p :: rest)
            = if p.getContentType = "text/plain" ∧ p.getContentDisposition ≠ some "attachment"
              then _decode_mail_body env p else firstPlainBody env rest := rfl
        rw [heq, if_pos hp]
      rw [h1, List.find?_cons_of_pos _ (by simpa using hp)]
    · have h1 : firstPlainBody env (p :: rest) = firstPlainBody env rest := by
        have heq : firstPlainBody env (p :: rest)
            = if p.getContentType = "text/plain" ∧ p.getContentDisposition ≠ some "attachment"
              then _decode_mail_body env p else firstPlainBody env rest := rfl
        rw [heq, if_neg hp]
      rw [h1, ih, List.find?_cons_of_neg _ (by simpa using hp)]

/-- C6 amended: when the message is multipart, the body is the
ignore-mode decoding of the first `text/plain` part of the walk whose
disposition is not `attachment` (empty when there is none); otherwise
it is the sole part's decoding.  Decoding uses the declared charset
(default `utf-8`) when the codec registry knows it, falls back to the
default encoding otherwise, and drops (ignores) invalid byte
sequences instead of raising. -/
theorem c6_amended_body_selection (env : PyEnv) (subject : Option String)
    (msg : MimePart) :
    (extract_subject_and_body env subject msg).2
      = (if msg.isMultipart then
          match msg.walk.find? (fun p => decide (p.getContentType = "text/plain"
              ∧ p.getContentDisposition ≠ some "attachment")) with
          | some p => _decode_mail_body env p
          | none => []
        else _decode_mail_body env msg) ∧
    (∀ (part : MimePart) (bs : List Nat) (codec : Codec),
      part.getPayloadDecoded = some bs →
      env.lookupCodec (part.getContentCharset.getD "utf-8") = some codec →
      _decode_mail_body env part = pyDecodeIgnore codec bs) ∧
    (∀ (part : MimePart) (bs : List Nat),
      part.getPayloadDecoded = some bs →
      env.lookupCodec (part.getContentCharset.getD "utf-8") = none →
      _decode_mail_body env part = pyDecodeIgnore env.utf8 bs) := by
  refine ⟨?_, ?_, ?_⟩
  · unfold extract_subject_and_body
    dsimp only
    by_cases hm : msg.isMultipart
    · rw [if_pos hm, if_pos hm, firstPlainBody_eq_find]
    · rw [if_neg hm, if_neg hm]
  · intro part bs codec hpl hcodec
    unfold _decode_mail_body
    rw [hpl]
    dsimp only
    rw [hcodec]
  · intro part bs hpl hcodec
    unfold _decode_mail_body
    rw [hpl]
    dsimp only
    rw [hcodec]

/-- Witness for the amended C6 at the concrete ascii part. -/
theorem c6_amended_body_selection_witness :
    _decode_mail_body penv0 (.leaf "text/plain" none (some "ascii") (some [65, 255, 66]))
      = pyDecodeIgnore asciiCodec [65, 255, 66] :=
  (c6_amended_body_selection penv0 none
    (.leaf "text/plain" none (some "ascii") (some [65, 255, 66]))).2.1
    (.leaf "text/plain" none (some "ascii") (some [65, 255, 66]))
    [65, 255, 66] asciiCodec rfl rfl

/-! ### C1: the retry-exhaustion contract of the batch fetch -/

/-- Executing the retry loop from `attempt` with the matching fuel,
when every attempt up to the last still has outstanding UIDs, reaches
the final attempt: a failed final attempt raises, a successful one
returns the accumulated results together with the still-missing
UIDs. -/
theorem fetchLoop_exhausts (oracle : Nat → String × List RespItem) (retry : Nat)
    (requested : List String) :
    ∀ (fuel attempt : Nat), attempt + fuel = retry + 1 → attempt ≤ retry →
      (∀ k, attempt ≤ k → k ≤ retry → (stateAt oracle requested k).1 ≠ []) →
      fetchLoop oracle retry fuel attempt (stateAt oracle requested attempt).1
          (stateAt oracle requested attempt).2
        = if attemptBad (oracle retry) then .error .fetchFailed
          else .ok ((stateAt oracle requested (retry + 1)).2,
                    (stateAt oracle requested (retry + 1)).1) := by
  intro fuel
  induction fuel with
  | zero => intro attempt h hatt _; omega
  | succ fuel ih =>
    intro attempt h hatt hlive
    unfold fetchLoop
    rw [if_neg (hlive attempt le_rfl hatt)]
    rcases hpi : processItems (oracle attempt).2 [] (stateAt oracle requested attempt).2
      with ⟨F, R⟩
    by_cases hbad : attemptBad (oracle attempt)
    · rw [if_pos hbad]
      by_cases hlast : attempt < retry
      · rw [if_pos hlast]
        have hstep : stateAt oracle requested (attempt + 1)
            = stateAt oracle requested attempt := by
          show attemptStep (oracle attempt) (stateAt oracle requested attempt) = _
          unfold attemptStep
          rw [if_pos hbad]
        rw [← hstep]
        exact ih (attempt + 1) (by omega) (by omega) (fun k hk1 hk2 => hlive k (by omega) hk2)
      · have heq : attempt = retry := by omega
        rw [if_neg hlast]
        rw [heq] at hbad
        rw [if_pos hbad]
    · rw [if_neg hbad]
      rw [hpi]
      dsimp only
      have hstep : stateAt oracle requested (attempt + 1)
          = ((stateAt oracle requested attempt).1.filter (fun u => !F.contains u), R) := by
        show attemptStep (oracle attempt) (stateAt oracle requested attempt) = _
        unfold attemptStep
        rw [if_neg hbad, hpi]
      have h1 : (stateAt oracle requested (attempt + 1)).1
          = (stateAt oracle requested attempt).1.filter (fun u => !F.contains u) := by
        rw [hstep]
      have h2 : (stateAt oracle requested (attempt + 1)).2 = R := by rw [hstep]
      by_cases hlast : attempt < retry
      · rw [← h1, ← h2]
        exact ih (attempt + 1) (by omega) (by omega) (fun k hk1 hk2 => hlive k (by omega) hk2)
      · have heq : attempt = retry := by omega
        rw [heq] at hbad
        rw [if_neg hbad]
        have hfuel : fuel = 0 := by omega
        subst hfuel
        have h3 : (stateAt oracle requested (retry + 1)).1
            = (stateAt oracle requested attempt).1.filter (fun u => !F.contains u) := by
          rw [← heq, h1]
        have h4 : (stateAt oracle requested (retry + 1)).2 = R := by rw [← heq, h2]
        rw [h3, h4]
        rfl

/-- Loop invariant of the retry loop: as long as every parsed UID in
the responses is one of the requested UIDs, the result keys after `k`
attempts are exactly the requested UIDs no longer outstanding, and the
outstanding set stays inside the requested set. -/
theorem stateAt_inv (oracle : Nat → String × List RespItem) (requested : List String) :
    ∀ (k : Nat),
      (∀ j, j < k → ∀ it ∈ (oracle j).2, ∀ u, itemUid it = some u → u ∈ requested) →
      ((∀ u, u ∈ dictKeys (stateAt oracle requested k).2 ↔
          u ∈ requested ∧ u ∉ (stateAt oracle requested k).1) ∧
       (∀ u, u ∈ (stateAt oracle requested k).1 → u ∈ requested)) := by
  intro k
  induction k with
  | zero =>
    intro _
    constructor
    · intro u
      constructor
      · intro hu
        simp [stateAt, dictKeys_nil] at hu
      · rintro ⟨h1, h2⟩
        exact absurd h1 h2
    · intro u hu
      exact hu
  | succ k ih =>
    intro hp
    obtain ⟨ihk, ihr⟩ := ih (fun j hj => hp j (by omega))
    rcases hpi : processItems (oracle k).2 [] (stateAt oracle requested k).2 with ⟨F, R⟩
    have hF : ∀ u, u ∈ F ↔ ∃ it ∈ (oracle k).2, itemUid it = some u := by
      intro u
      have := processItems_mem_fetched (oracle k).2 [] (stateAt oracle requested k).2 u
      rw [hpi] at this
      simpa using this
    have hR : ∀ u, u ∈ dictKeys R ↔
        u ∈ dictKeys (stateAt oracle requested k).2 ∨
          ∃ it ∈ (oracle k).2, itemUid it = some u := by
      intro u
      have := processItems_mem_keys (oracle k).2 [] (stateAt oracle requested k).2 u
      rw [hpi] at this
      exact this
    by_cases hbad : attemptBad (oracle k)
    · have hstep : stateAt oracle requested (k + 1) = stateAt oracle requested k := by
        show attemptStep (oracle k) (stateAt oracle requested k) = _
        unfold attemptStep
        rw [if_pos hbad]
      rw [hstep]
      exact ⟨ihk, ihr⟩
    · have hstep : stateAt oracle requested (k + 1)
          = ((stateAt oracle requested k).1.filter (fun u => !F.contains u), R) := by
        show attemptStep (oracle k) (stateAt oracle requested k) = _
        unfold attemptStep
        rw [if_neg hbad, hpi]
      rw [hstep]
      constructor
      · intro u
        constructor
        · intro hu
          rcases (hR u).mp hu with h | ⟨it, hit, hiu⟩
          · obtain ⟨hreq, hnot⟩ := (ihk u).mp h
            refine ⟨hreq, fun hc => ?_⟩
            rw [List.mem_filter] at hc
            exact hnot hc.1
          · have hreq := hp k (by omega) it hit u hiu
            refine ⟨hreq, fun hc => ?_⟩
            rw [List.mem_filter] at hc
            have huF : u ∈ F := (hF u).mpr ⟨it, hit, hiu⟩
            simp [huF] at hc
        · rintro ⟨hreq, hnot⟩
          by_cases hin : u ∈ (stateAt oracle requested k).1
          · have huF : u ∈ F := by
              by_contra hnf
              apply hnot
              rw [List.mem_filter]
              refine ⟨hin, ?_⟩
              simpa using hnf
            obtain ⟨it, hit, hiu⟩ := (hF u).mp huF
            exact (hR u).mpr (Or.inr ⟨it, hit, hiu⟩)
          · exact (hR u).mpr (Or.inl ((ihk u).mpr ⟨hreq, hin⟩))
      · intro u hu
        rw [List.mem_filter] at hu
        exact ihr u hu.1

/-- C1: when execution reaches the final attempt with UIDs still
outstanding (every earlier attempt left the outstanding set
non-empty), then: a non-success (or data-less) final attempt raises
the batch-level exception, while a successful final attempt returns
normally with the partial result map — whose keys are exactly the
satisfied requested UIDs, provided the server only answers with
requested UIDs — paired with the list of missing UIDs that the warning
names (non-empty exactly when some UIDs were never satisfied). -/
theorem c1_retry_exhaustion (select : String → Bool)
    (oracle : Nat → String × List RespItem) (mailbox : String)
    (uid_list : List Nat) (retry : Nat)
    (hsel : select mailbox = true)
    (hlive : ∀ k, k ≤ retry → (stateAt oracle (requestedUids uid_list) k).1 ≠ [])
    (hproper : ∀ k, k ≤ retry → ∀ it ∈ (oracle k).2, ∀ u, itemUid it = some u →
      u ∈ requestedUids uid_list) :
    (attemptBad (oracle retry) →
      fetch_raw_by_mailbox_and_uid_list select oracle mailbox uid_list retry
        = .error .fetchFailed) ∧
    (¬ attemptBad (oracle retry) →
      fetch_raw_by_mailbox_and_uid_list select oracle mailbox uid_list retry
        = .ok ((stateAt oracle (requestedUids uid_list) (retry + 1)).2,
               (stateAt oracle (requestedUids uid_list) (retry + 1)).1) ∧
      (∀ u, u ∈ dictKeys (stateAt oracle (requestedUids uid_list) (retry + 1)).2 ↔
        u ∈ requestedUids uid_list ∧
          u ∉ (stateAt oracle (requestedUids uid_list) (retry + 1)).1)) := by
  have hfr : fetch_raw_by_mailbox_and_uid_list select oracle mailbox uid_list retry
      = fetchLoop oracle retry (retry + 1) 0 (requestedUids uid_list) [] := by
    unfold fetch_raw_by_mailbox_and_uid_list
    rw [if_neg (by simp [hsel])]
  have hrun := fetchLoop_exhausts oracle retry (requestedUids uid_list) (retry + 1) 0
    (by omega) (by omega) (fun k _ hk => hlive k hk)
  have hstate0 : stateAt oracle (requestedUids uid_list) 0
      = (requestedUids uid_list, []) := rfl
  rw [hstate0] at hrun
  have hinv := (stateAt_inv oracle (requestedUids uid_list) (retry + 1)
    (fun j hj => hproper j (by omega))).1
  constructor
  · intro hbad
    rw [hfr, hrun, if_pos hbad]
  · intro hbad
    rw [hfr, hrun, if_neg hbad]
    exact ⟨rfl, hinv⟩

/-- A fetch oracle answering UID 1 on the first attempt and nothing
useful afterwards. -/
def orcPart : Nat → String × List RespItem :=
  fun k => if k = 0 then ("OK", [.pair "7 (UID 1 x" "a"]) else ("OK", [.junk])

/-- Witness for C1 at `uid_list = [1, 2]`, `retry = 2`: UID 2 is never
satisfied, the call returns the partial result for UID 1 and the
missing list `["2"]`. -/
theorem c1_retry_exhaustion_witness :
    fetch_raw_by_mailbox_and_uid_list selTrue orcPart "A" [1, 2] 2
      = .ok ((stateAt orcPart (requestedUids [1, 2]) 3).2,
             (stateAt orcPart (requestedUids [1, 2]) 3).1) ∧
    (∀ u, u ∈ dictKeys (stateAt orcPart (requestedUids [1, 2]) 3).2 ↔
      u ∈ requestedUids [1, 2] ∧ u ∉ (stateAt orcPart (requestedUids [1, 2]) 3).1) := by
  have hproper : ∀ k, k ≤ 2 → ∀ it ∈ (orcPart k).2, ∀ u, itemUid it = some u →
      u ∈ requestedUids [1, 2] := by
    intro k hk it hit u hu
    by_cases hk0 : k = 0
    · subst hk0
      have hit' : it = .pair "7 (UID 1 x" "a" := by simpa [orcPart] using hit
      subst hit'
      have h1 : itemUid (.pair "7 (UID 1 x" "a") = some "1" := rfl
      rw [h1] at hu
      injection hu with hu
      subst hu
      decide
    · have hj : (orcPart k).2 = [.junk] := by simp [orcPart, hk0]
      rw [hj] at hit
      have hit' : it = .junk := by simpa using hit
      subst hit'
      simp [itemUid] at hu
  exact (c1_retry_exhaustion selTrue orcPart "A" [1, 2] 2 rfl (by decide) hproper).2
    (by decide)

/-! ### C4: the modified-UTF-7 round-trip law -/

theorem b64DigitInv_b64Digit : ∀ n, n < 64 → b64DigitInv (b64Digit n) = some n := by
  decide

theorem b64Digit_ne (n : Nat) : b64Digit n ≠ 45 ∧ b64Digit n ≠ 38 := by
  unfold b64Digit
  split_ifs <;> omega

theorem b64_roundtrip : ∀ (bs : List Nat), (∀ b ∈ bs, b < 256) →
    b64Decode (b64Encode bs) = some bs
  | [], _ => rfl
  | [a], h => by
    have ha : a < 256 := h a (by simp)
    have h1 := b64DigitInv_b64Digit (a / 4) (by omega)
    have h2 := b64DigitInv_b64Digit (a % 4 * 16) (by omega)
    show b64Decode [b64Digit (a / 4), b64Digit (a % 4 * 16)] = some [a]
    unfold b64Decode
    rw [h1, h2]
    dsimp only
    have : a / 4 * 4 + a % 4 * 16 / 16 = a := by omega
    rw [this]
  | [a, b], h => by
    have ha : a < 256 := h a (by simp)
    have hb : b < 256 := h b (by simp)
    have h1 := b64DigitInv_b64Digit (a / 4) (by omega)
    have h2 := b64DigitInv_b64Digit (a % 4 * 16 + b / 16) (by omega)
    have h3 := b64DigitInv_b64Digit (b % 16 * 4) (by omega)
    show b64Decode [b64Digit (a / 4), b64Digit (a % 4 * 16 + b / 16),
      b64Digit (b % 16 * 4)] = some [a, b]
    unfold b64Decode
    rw [h1, h2, h3]
    dsimp only
    have e1 : a / 4 * 4 + (a % 4 * 16 + b / 16) / 16 = a := by omega
    have e2 : (a % 4 * 16 + b / 16) % 16 * 16 + b % 16 * 4 / 4 = b := by omega
    rw [e1, e2]
  | a :: b :: c :: rest, h => by
    have ha : a < 256 := h a (by simp)
    have hb : b < 256 := h b (by simp)
    have hc : c < 256 := h c (by simp)
    have ih := b64_roundtrip rest (fun x hx => h x (by simp [hx]))
    have h1 := b64DigitInv_b64Digit (a / 4) (by omega)
    have h2 := b64DigitInv_b64Digit (a % 4 * 16 + b / 16) (by omega)
    have h3 := b64DigitInv_b64Digit (b % 16 * 4 + c / 64) (by omega)
    have h4 := b64DigitInv_b64Digit (c % 64) (by omega)
    show b64Decode (b64Digit (a / 4) :: b64Digit (a % 4 * 16 + b / 16) ::
      b64Digit (b % 16 * 4 + c / 64) :: b64Digit (c % 64) :: b64Encode rest)
      = some (a :: b :: c :: rest)
    unfold b64Decode
    rw [h1, h2, h3, h4, ih]
    dsimp only
    have e1 : a / 4 * 4 + (a % 4 * 16 + b / 16) / 16 = a := by omega
    have e2 : (a % 4 * 16 + b / 16) % 16 * 16 + (b % 16 * 4 + c / 64) / 4 = b := by omega
    have e3 : (b % 16 * 4 + c / 64) % 4 * 64 + c % 64 = c := by omega
    rw [e1, e2, e3]

theorem b64Encode_ne : ∀ (bs : List Nat), ∀ x ∈ b64Encode bs, x ≠ 45 ∧ x ≠ 38
  | [] => by simp [b64Encode]
  | [a] => by
    intro x hx
    simp [b64Encode] at hx
    rcases hx with h | h <;> (subst h; exact b64Digit_ne _)
  | [a, b] => by
    intro x hx
    simp [b64Encode] at hx
    rcases hx with h | h | h <;> (subst h; exact b64Digit_ne _)
  | a :: b :: c :: rest => by
    intro x hx
    simp only [b64Encode, List.mem_cons] at hx
    rcases hx with h | h | h | h | h
    · subst h; exact b64Digit_ne _
    · subst h; exact b64Digit_ne _
    · subst h; exact b64Digit_ne _
    · subst h; exact b64Digit_ne _
    · exact b64Encode_ne rest x h

theorem b64Encode_ne_nil : ∀ (bs : List Nat), bs ≠ [] → b64Encode bs ≠ []
  | [], h => absurd rfl h
  | [_], _ => by simp [b64Encode]
  | [_, _], _ => by simp [b64Encode]
  | _ :: _ :: _ :: _, _ => by simp [b64Encode]

theorem utf16beChar_bytes_lt (c : Nat) (hs : isScalar c) :
    ∀ x ∈ utf16beChar c, x < 256 := by
  intro x hx
  unfold utf16beChar at hx
  rcases hs with hs | hs
  · rw [if_pos (by omega)] at hx
    simp at hx
    rcases hx with h | h <;> omega
  · by_cases hc : c < 0x10000
    · rw [if_pos hc] at hx
      simp at hx
      rcases hx with h | h <;> omega
    · rw [if_neg hc] at hx
      simp at hx
      rcases hx with h | h | h | h <;> omega

theorem utf16be_bytes_lt (cs : List Nat) (hs : ∀ c ∈ cs, isScalar c) :
    ∀ x ∈ utf16be cs, x < 256 := by
  intro x hx
  unfold utf16be at hx
  rw [List.mem_flatten] at hx
  obtain ⟨l, hl, hxl⟩ := hx
  rw [List.mem_map] at hl
  obtain ⟨c, hc, rfl⟩ := hl
  exact utf16beChar_bytes_lt c (hs c hc) x hxl

theorem utf16be_ne_nil (cs : List Nat) (h : cs ≠ []) : utf16be cs ≠ [] := by
  match cs, h with
  | c :: rest, _ =>
    unfold utf16be
    simp only [List.map_cons, List.flatten_cons]
    unfold utf16beChar
    split <;> simp

theorem utf16beDecode_char (c : Nat) (hs : isScalar c) (rest : List Nat)
    (cs : List Nat) (hrest : utf16beDecode rest = some cs) :
    utf16beDecode (utf16beChar c ++ rest) = some (c :: cs) := by
  by_cases hc : c < 0x10000
  · have hb : utf16beChar c = [c / 256, c % 256] := by
      unfold utf16beChar; rw [if_pos hc]
    rw [hb]
    show utf16beDecode (c / 256 :: c % 256 :: rest) = _
    unfold utf16beDecode
    dsimp only
    have hu : c / 256 * 256 + c % 256 = c := by omega
    rw [hu]
    have hns1 : ¬(0xD800 ≤ c ∧ c < 0xDC00) := by
      rcases hs with h | h <;> omega
    have hns2 : ¬(0xDC00 ≤ c ∧ c < 0xE000) := by
      rcases hs with h | h <;> omega
    rw [if_neg hns1, if_neg hns2, hrest]
  · have hlt : c < 0x110000 := by
      rcases hs with h | h
      · omega
      · exact h.2
    have hb : utf16beChar c
        = [(0xD800 + (c - 0x10000) / 0x400) / 256, (0xD800 + (c - 0x10000) / 0x400) % 256,
           (0xDC00 + (c - 0x10000) % 0x400) / 256, (0xDC00 + (c - 0x10000) % 0x400) % 256] := by
      unfold utf16beChar; rw [if_neg hc]
    rw [hb]
    show utf16beDecode (_ :: _ :: _ :: _ :: rest) = _
    unfold utf16beDecode
    dsimp only
    have hu : (0xD800 + (c - 0x10000) / 0x400) / 256 * 256
        + (0xD800 + (c - 0x10000) / 0x400) % 256 = 0xD800 + (c - 0x10000) / 0x400 := by omega
    have hv : (0xDC00 + (c - 0x10000) % 0x400) / 256 * 256
        + (0xDC00 + (c - 0x10000) % 0x400) % 256 = 0xDC00 + (c - 0x10000) % 0x400 := by omega
    rw [hu]
    have hhi : 0xD800 ≤ 0xD800 + (c - 0x10000) / 0x400
        ∧ 0xD800 + (c - 0x10000) / 0x400 < 0xDC00 := by
      constructor
      · omega
      · omega
    rw [if_pos hhi, hv]
    have hlo : 0xDC00 ≤ 0xDC00 + (c - 0x10000) % 0x400
        ∧ 0xDC00 + (c - 0x10000) % 0x400 < 0xE000 := by
      constructor
      · omega
      · omega
    rw [if_pos hlo, hrest]
    have hrec : 0x10000 + (0xD800 + (c - 0x10000) / 0x400 - 0xD800) * 0x400
        + (0xDC00 + (c - 0x10000) % 0x400 - 0xDC00) = c := by omega
    rw [hrec]

theorem utf16be_roundtrip : ∀ (cs : List Nat), (∀ c ∈ cs, isScalar c) →
    utf16beDecode (utf16be cs) = some cs
  | [], _ => rfl
  | c :: rest, h => by
    have hchar : utf16be (c :: rest) = utf16beChar c ++ utf16be rest := by
      unfold utf16be
      simp [List.map_cons, List.flatten_cons]
    rw [hchar]
    exact utf16beDecode_char c (h c (by simp)) _ rest
      (utf16be_roundtrip rest (fun x hx => h x (by simp [hx])))

theorem unB64_roundtrip (run : List Nat) (hs : ∀ c ∈ run, isScalar c) :
    unB64 (b64Encode (utf16be run)) = some run := by
  unfold unB64
  rw [b64_roundtrip (utf16be run) (utf16be_bytes_lt run hs)]
  dsimp only
  rw [utf16be_roundtrip run hs]

theorem utf7DecodeGo_lit (c : Nat) (hc : c ≠ 38) (rest cs : List Nat)
    (hrest : utf7DecodeGo none rest = some cs) :
    utf7DecodeGo none (c :: rest) = some (c :: cs) := by
  unfold utf7DecodeGo
  rw [if_neg hc, hrest]

theorem utf7DecodeGo_amp (rest cs : List Nat)
    (hrest : utf7DecodeGo none rest = some cs) :
    utf7DecodeGo none (38 :: 45 :: rest) = some (38 :: cs) := by
  unfold utf7DecodeGo
  rw [if_pos rfl]
  unfold utf7DecodeGo
  rw [if_pos rfl]
  dsimp only
  rw [hrest]

theorem utf7DecodeGo_collect : ∀ (chars : List Nat), (∀ c ∈ chars, c ≠ 45) →
    ∀ (buf rest : List Nat),
      utf7DecodeGo (some buf) (chars ++ 45 :: rest)
        = utf7DecodeGo (some (buf ++ chars)) (45 :: rest)
  | [], _, buf, rest => by simp
  | ch :: chtl, hch, buf, rest => by
    have hne : ch ≠ 45 := hch ch (by simp)
    have hstep : utf7DecodeGo (some buf) (ch :: (chtl ++ 45 :: rest))
        = utf7DecodeGo (some (buf ++ [ch])) (chtl ++ 45 :: rest) := by
      conv_lhs => unfold utf7DecodeGo
      rw [if_neg hne]
    show utf7DecodeGo (some buf) (ch :: (chtl ++ 45 :: rest)) = _
    rw [hstep,
      utf7DecodeGo_collect chtl (fun c hc => hch c (by simp [hc])) (buf ++ [ch]) rest]
    simp

theorem utf7DecodeGo_dash (buf : List Nat) (hbuf : buf ≠ []) (rest cs dec : List Nat)
    (hdec : unB64 buf = some dec) (hrest : utf7DecodeGo none rest = some cs) :
    utf7DecodeGo (some buf) (45 :: rest) = some (dec ++ cs) := by
  cases buf with
  | nil => exact absurd rfl hbuf
  | cons b bs =>
    unfold utf7DecodeGo
    rw [if_pos rfl]
    dsimp only
    rw [hdec, hrest]

theorem utf7DecodeGo_b64block (run : List Nat) (hrun : run ≠ [])
    (hs : ∀ c ∈ run, isScalar c) (rest cs : List Nat)
    (hrest : utf7DecodeGo none rest = some cs) :
    utf7DecodeGo none (doB64 run ++ rest) = some (run ++ cs) := by
  have hdo : doB64 run = 38 :: b64Encode (utf16be run) ++ [45] := by
    cases run with
    | nil => exact absurd rfl hrun
    | cons a l => rfl
  rw [hdo]
  have hshape : (38 :: b64Encode (utf16be run) ++ [45]) ++ rest
      = 38 :: (b64Encode (utf16be run) ++ (45 :: rest)) := by simp
  rw [hshape]
  have hstep : utf7DecodeGo none (38 :: (b64Encode (utf16be run) ++ (45 :: rest)))
      = utf7DecodeGo (some []) (b64Encode (utf16be run) ++ (45 :: rest)) := by
    conv_lhs => unfold utf7DecodeGo
    rw [if_pos rfl]
  rw [hstep,
    utf7DecodeGo_collect (b64Encode (utf16be run))
      (fun c hc => (b64Encode_ne _ c hc).1) [] rest,
    List.nil_append]
  exact utf7DecodeGo_dash _ (b64Encode_ne_nil _ (utf16be_ne_nil run hrun)) rest cs run
    (unB64_roundtrip run hs) hrest

theorem utf7EncodeGo_roundtrip : ∀ (s pending : List Nat),
    (∀ c ∈ s, isScalar c) → (∀ c ∈ pending, isScalar c) →
    utf7DecodeGo none (utf7EncodeGo pending s) = some (pending ++ s)
  | [], pending, _, hp => by
    show utf7DecodeGo none (doB64 pending) = some (pending ++ [])
    by_cases hpd : pending = []
    · subst hpd
      rfl
    · rw [List.append_nil]
      have hb := utf7DecodeGo_b64block pending hpd hp [] [] rfl
      rw [List.append_nil, List.append_nil] at hb
      exact hb
  | c :: rest, pending, hs, hp => by
    have hsr : ∀ x ∈ rest, isScalar x := fun x hx => hs x (by simp [hx])
    have hsc : isScalar c := hs c (by simp)
    have hrec := utf7EncodeGo_roundtrip rest [] hsr (by simp)
    rw [List.nil_append] at hrec
    by_cases hpr : 0x20 ≤ c ∧ c ≤ 0x7E
    · have henc : utf7EncodeGo pending (c :: rest)
          = doB64 pending ++ (if c = 38 then [38, 45] else [c]) ++ utf7EncodeGo [] rest := by
        have heq : utf7EncodeGo pending (c :: rest)
            = if 0x20 ≤ c ∧ c ≤ 0x7E then
                doB64 pending ++ (if c = 38 then [38, 45] else [c]) ++ utf7EncodeGo [] rest
              else utf7EncodeGo (pending ++ [c]) rest := rfl
        rw [heq, if_pos hpr]
      have hinner : utf7DecodeGo none
          ((if c = 38 then [38, 45] else [c]) ++ utf7EncodeGo [] rest)
          = some (c :: rest) := by
        by_cases h38 : c = 38
        · subst h38
          rw [if_pos rfl]
          show utf7DecodeGo none (38 :: 45 :: utf7EncodeGo [] rest) = _
          exact utf7DecodeGo_amp _ _ hrec
        · rw [if_neg h38]
          show utf7DecodeGo none (c :: utf7EncodeGo [] rest) = _
          exact utf7DecodeGo_lit c h38 _ _ hrec
      rw [henc, List.append_assoc]
      by_cases hpd : pending = []
      · subst hpd
        have hd0 : doB64 ([] : List Nat) = [] := rfl
        rw [hd0, List.nil_append, hinner]
        simp
      · rw [utf7DecodeGo_b64block pending hpd hp _ _ hinner]
    · have henc : utf7EncodeGo pending (c :: rest)
          = utf7EncodeGo (pending ++ [c]) rest := by
        have heq : utf7EncodeGo pending (c :: rest)
            = if 0x20 ≤ c ∧ c ≤ 0x7E then
                doB64 pending ++ (if c = 38 then [38, 45] else [c]) ++ utf7EncodeGo [] rest
              else utf7EncodeGo (pending ++ [c]) rest := rfl
        rw [heq, if_neg hpr]
      rw [henc]
      have hp' : ∀ x ∈ pending ++ [c], isScalar x := by
        intro x hx
        rcases List.mem_append.mp hx with h | h
        · exact hp x h
        · rw [List.mem_singleton.mp h]
          exact hsc
      rw [utf7EncodeGo_roundtrip rest (pending ++ [c]) hsr hp']
      simp

/-- C4: wire-encoding a mailbox display name with the modified-UTF-7
codec and wire-decoding the result returns the original name, for
every string of Unicode scalar values. -/
theorem c4_utf7_roundtrip (s : List Nat) (hs : ∀ c ∈ s, isScalar c) :
    decode_from_utf7 (encode_to_utf7 s) = some s := by
  have h := utf7EncodeGo_roundtrip s [] hs (by simp)
  rw [List.nil_append] at h
  exact h

/-- Witness for C4 at the Japanese mailbox name `メール`. -/
theorem c4_utf7_roundtrip_witness :
    decode_from_utf7 (encode_to_utf7 [0x30E1, 0x30FC, 0x30EB])
      = some [0x30E1, 0x30FC, 0x30EB] :=
  c4_utf7_roundtrip [0x30E1, 0x30FC, 0x30EB] (by decide)

end MailAnalyzer
